import Mathlib

/-!
# Shallow embedding of `src/LRU-K.cpp` (an LRU-K cache)

The C++ program keeps two `std::list`s of `CacheEntry` records:

* `historyList_` — the candidate ("History") region, most recently touched at
  the front;
* `cacheList_` — the hot ("Hot"/cache) region, kept sorted so that the entry
  whose `access_time_.front()` (the oldest retained timestamp, i.e. the K-th
  most recent access) is newest comes first.

Each entry carries a FIFO queue `access_time_` of at most K access timestamps,
oldest first.  `steady_clock::now()` is modelled by a logical clock `clock`
stored in the cache state: every `push(now())` in the source records the
current clock value and increments it (the real monotonic clock never ticks
backwards, and each call site takes a fresh reading).

The two `unordered_map` indices of the source always mirror the key sets of
the two lists (every insertion/erasure updates both in lockstep), so the
embedding replaces map lookups by key search in the corresponding list.

`int` fields (`capacity_`, `k_`) are modelled as `Int`.  The source compares
`list::size()` (a `size_t`) against these `int`s; for the non-negative
configurations all claims quantify over, that coincides with the `Int`
comparison written here.
-/

set_option linter.unusedSectionVars false

namespace LRUKSpec

/-- One cache record: key, value, and the sliding window of (up to K) access
timestamps, oldest first (`queue` front = list head, `push` = append). -/
structure CacheEntry (KEY VALUE : Type) where
  key_ : KEY
  value_ : VALUE
  access_time_ : List Nat
deriving DecidableEq, Repr

variable {KEY VALUE : Type} [DecidableEq KEY] [Inhabited VALUE]

/-- `access_time_.front()`: the oldest retained timestamp.  The source never
calls it on an empty queue (every entry is created with one timestamp); the
default `0` is arbitrary. -/
def frontTime (e : CacheEntry KEY VALUE) : Nat :=
  e.access_time_.headD 0

/-- `compareByAccessTime`: `a.access_time_.front() > b.access_time_.front()` —
newest oldest-retained-timestamp first. -/
def compareByAccessTime (a b : CacheEntry KEY VALUE) : Bool :=
  frontTime b < frontTime a

/-- `cacheList_.sort(compareByAccessTime)`.  `std::list::sort` is a stable
sort by the strict comparison `cmp`; a stable sort by `cmp` is exactly a
stable sort by the total preorder `le a b := ¬ cmp b a`, and the output of a
stable sort under a total preorder is uniquely determined, so
`List.insertionSort` (stable) with `le a b := frontTime b ≤ frontTime a`
computes the same list. -/
def sortCache (l : List (CacheEntry KEY VALUE)) : List (CacheEntry KEY VALUE) :=
  l.insertionSort (fun a b => frontTime b ≤ frontTime a)

/-- Key search, standing for the `unordered_map` lookup (and for
`findCacheEntry`, which scans for the first entry with the given key). -/
def findEntry (l : List (CacheEntry KEY VALUE)) (k : KEY) :
    Option (CacheEntry KEY VALUE) :=
  l.find? (fun e => decide (e.key_ = k))

/-- Mutation of the found node through its iterator: replace the first entry
with key `k` by `e'`, leaving the rest of the list untouched. -/
def replaceFirst (l : List (CacheEntry KEY VALUE)) (k : KEY)
    (e' : CacheEntry KEY VALUE) : List (CacheEntry KEY VALUE) :=
  match l with
  | [] => []
  | x :: xs => if x.key_ = k then e' :: xs else x :: replaceFirst xs k e'

/-- `entry_it->value_ = v`: overwrite the value of the first entry with key
`k` in place. -/
def setValueFirst (l : List (CacheEntry KEY VALUE)) (k : KEY) (v : VALUE) :
    List (CacheEntry KEY VALUE) :=
  match l with
  | [] => []
  | x :: xs =>
    if x.key_ = k then { x with value_ := v } :: xs else x :: setValueFirst xs k v

/-- `list::erase` of the node the map points at: remove the first entry with
key `k`. -/
def eraseKey (l : List (CacheEntry KEY VALUE)) (k : KEY) :
    List (CacheEntry KEY VALUE) :=
  l.eraseP (fun e => decide (e.key_ = k))

/-- The keys of a region, in region order. -/
def keysOf (l : List (CacheEntry KEY VALUE)) : List KEY :=
  l.map (·.key_)

/-- The state of `LRUK_Cache<KEY,VALUE>`: configuration, the two regions, and
the logical clock standing for `steady_clock`. -/
structure LRUK_Cache (KEY VALUE : Type) where
  capacity_ : Int
  k_ : Int
  historyList_ : List (CacheEntry KEY VALUE)
  cacheList_ : List (CacheEntry KEY VALUE)
  clock : Nat
deriving DecidableEq, Repr

namespace LRUK_Cache

/-- The constructor `LRUK_Cache(int c, int k)`: stores the two configuration
numbers unchecked and starts with both regions empty.  It cannot fail. -/
def construct (c k : Int) : LRUK_Cache KEY VALUE :=
  { capacity_ := c, k_ := k, historyList_ := [], cacheList_ := [], clock := 0 }

/-- `getFromCacheList(k)`: probe the hot region.  On a hit, push a fresh
timestamp; if the window now exceeds `k_`, pop the oldest, re-sort the hot
region and return (the iterator to) the entry; otherwise the returned
iterator stays `end()` (modelled as `none`) even though the entry was
found and mutated. -/
def getFromCacheList (st : LRUK_Cache KEY VALUE) (k : KEY) :
    LRUK_Cache KEY VALUE × Option (CacheEntry KEY VALUE) :=
  match findEntry st.cacheList_ k with
  | none => (st, none)
  | some e =>
    let times := e.access_time_ ++ [st.clock]
    let st1 : LRUK_Cache KEY VALUE := { st with clock := st.clock + 1 }
    if (times.length : Int) > st1.k_ then
      let e' : CacheEntry KEY VALUE := { e with access_time_ := times.tail }
      let newCache := sortCache (replaceFirst st1.cacheList_ k e')
      ({ st1 with cacheList_ := newCache }, findEntry newCache k)
    else
      let e' : CacheEntry KEY VALUE := { e with access_time_ := times }
      ({ st1 with cacheList_ := replaceFirst st1.cacheList_ k e' }, none)

/-- Where `getFromHistoryList` left the looked-up entry: not found, still in
the history region, or promoted into the hot region. -/
inductive HistRet (KEY VALUE : Type) where
  | notFound : HistRet KEY VALUE
  | inHistory : CacheEntry KEY VALUE → HistRet KEY VALUE
  | promoted : CacheEntry KEY VALUE → HistRet KEY VALUE
deriving DecidableEq, Repr

/-- `getFromHistoryList(k)`: probe the history region.  On a hit, push a
fresh timestamp; if the window reaches `k_` the entry becomes hot (popping the
oldest timestamp first when the window exceeds `k_`): it is appended to the
hot region, removed from history, and the hot region is re-sorted — when the
hot region is full, its last entry (the victim) is first moved back to the
front of the history region.  Below `k_` accesses the entry is just spliced to
the front of the history region.

The `cacheList_.getLast?` match mirrors `--cacheList_.end()`; the `none` case
(empty hot region taken for full) is undefined behaviour in the source and
only arises when `capacity_ ≤ 0`. -/
def getFromHistoryList (st : LRUK_Cache KEY VALUE) (k : KEY) :
    LRUK_Cache KEY VALUE × HistRet KEY VALUE :=
  match findEntry st.historyList_ k with
  | none => (st, .notFound)
  | some e =>
    let times := e.access_time_ ++ [st.clock]
    let st1 : LRUK_Cache KEY VALUE := { st with clock := st.clock + 1 }
    if (times.length : Int) ≥ st1.k_ then
      let times' := if (times.length : Int) > st1.k_ then times.tail else times
      let e' : CacheEntry KEY VALUE := { e with access_time_ := times' }
      if (st1.cacheList_.length : Int) < st1.capacity_ then
        let newCache := sortCache (st1.cacheList_ ++ [e'])
        ({ st1 with cacheList_ := newCache,
                    historyList_ := eraseKey st1.historyList_ k },
          match findEntry newCache k with
          | some r => .promoted r
          | none => .notFound)
      else
        match st1.cacheList_.getLast? with
        | some vict =>
          let newCache := sortCache (st1.cacheList_.dropLast ++ [e'])
          ({ st1 with cacheList_ := newCache,
                      historyList_ := vict :: eraseKey st1.historyList_ k },
            match findEntry newCache k with
            | some r => .promoted r
            | none => .notFound)
        | none =>
          let newCache := sortCache [e']
          ({ st1 with cacheList_ := newCache,
                      historyList_ := eraseKey st1.historyList_ k },
            match findEntry newCache k with
            | some r => .promoted r
            | none => .notFound)
    else
      let e' : CacheEntry KEY VALUE := { e with access_time_ := times }
      ({ st1 with historyList_ := e' :: eraseKey st1.historyList_ k },
        .inHistory e')

/-- `get(k, found)`: probe hot, then history; return the value (together with
the updated state) and the `found` flag, `VALUE()` (the default value) on a
miss. -/
def get (st : LRUK_Cache KEY VALUE) (k : KEY) :
    LRUK_Cache KEY VALUE × VALUE × Bool :=
  match getFromCacheList st k with
  | (st1, some e) => (st1, e.value_, true)
  | (st1, none) =>
    match getFromHistoryList st1 k with
    | (st2, .inHistory e) => (st2, e.value_, true)
    | (st2, .promoted e) => (st2, e.value_, true)
    | (st2, .notFound) => (st2, default, false)

/-- `put(k, v)`: probe hot, then history (both probes record an access exactly
as in `get`, and can promote/demote); on a hit overwrite the value in place —
through the returned iterator, so in the hot region if the probe promoted the
entry.  Otherwise insert a brand-new entry at the front of history with a
single recorded timestamp, first evicting the history tail when the history
region is at capacity (`--historyList_.end()` on an empty history is undefined
behaviour in the source and needs `capacity_ ≤ 0`; `dropLast` leaves `[]`
there). -/
def put (st : LRUK_Cache KEY VALUE) (k : KEY) (v : VALUE) :
    LRUK_Cache KEY VALUE :=
  match getFromCacheList st k with
  | (st1, some _) => { st1 with cacheList_ := setValueFirst st1.cacheList_ k v }
  | (st1, none) =>
    match getFromHistoryList st1 k with
    | (st2, .inHistory _) =>
      { st2 with historyList_ := setValueFirst st2.historyList_ k v }
    | (st2, .promoted _) =>
      { st2 with cacheList_ := setValueFirst st2.cacheList_ k v }
    | (st2, .notFound) =>
      let fresh : CacheEntry KEY VALUE :=
        { key_ := k, value_ := v, access_time_ := [st2.clock] }
      if (st2.historyList_.length : Int) < st2.capacity_ then
        { st2 with historyList_ := fresh :: st2.historyList_, clock := st2.clock + 1 }
      else
        { st2 with historyList_ := fresh :: st2.historyList_.dropLast,
                   clock := st2.clock + 1 }

/-- `clear()`: empty both regions (and hence both indices).  The logical
clock stands for the wall clock and keeps its value. -/
def clear (st : LRUK_Cache KEY VALUE) : LRUK_Cache KEY VALUE :=
  { st with historyList_ := [], cacheList_ := [] }

end LRUK_Cache

/-- One public cache operation. -/
inductive Op (KEY VALUE : Type) where
  | get : KEY → Op KEY VALUE
  | put : KEY → VALUE → Op KEY VALUE
  | clear : Op KEY VALUE
deriving DecidableEq, Repr

/-- Apply one operation to a state (the value returned by `get` is dropped). -/
def step (st : LRUK_Cache KEY VALUE) (op : Op KEY VALUE) : LRUK_Cache KEY VALUE :=
  match op with
  | .get k => (LRUK_Cache.get st k).1
  | .put k v => LRUK_Cache.put st k v
  | .clear => LRUK_Cache.clear st

/-- Run a whole operation sequence from a freshly constructed cache. -/
def run (c k : Int) (ops : List (Op KEY VALUE)) : LRUK_Cache KEY VALUE :=
  ops.foldl step (LRUK_Cache.construct c k)

/-- The hot region's ordering discipline: oldest-retained timestamps are
non-increasing from front to back. -/
def hotSorted (l : List (CacheEntry KEY VALUE)) : Prop :=
  (l.map frontTime).Pairwise (fun a b => b ≤ a)

/-!
## The reachable-state invariant

`Inv` collects the facts that hold in every state reachable from a freshly
constructed cache with positive `capacity_` and `k_`: both regions are
bounded by the capacity, the key indices are duplicate-free and disjoint,
history windows hold between 1 and `k_` timestamps, hot windows hold exactly
`k_` timestamps, and the hot region is sorted by `compareByAccessTime`
(oldest-retained timestamp non-increasing from front to back).
-/

structure Inv (st : LRUK_Cache KEY VALUE) : Prop where
  cap_pos : 1 ≤ st.capacity_
  k_pos : 1 ≤ st.k_
  hist_le : (st.historyList_.length : Int) ≤ st.capacity_
  cache_le : (st.cacheList_.length : Int) ≤ st.capacity_
  hist_nodup : (keysOf st.historyList_).Nodup
  cache_nodup : (keysOf st.cacheList_).Nodup
  disj : ∀ a ∈ keysOf st.historyList_, a ∉ keysOf st.cacheList_
  hist_times : ∀ e ∈ st.historyList_,
    1 ≤ e.access_time_.length ∧ (e.access_time_.length : Int) ≤ st.k_
  cache_times : ∀ e ∈ st.cacheList_, (e.access_time_.length : Int) = st.k_
  cache_sorted : hotSorted st.cacheList_

/-!
## Concrete operation sequences used by the claim theorems
-/

/-- The example scenario of the specification (and the prefix of `main` up to
`put(5,"E1")`): capacity 3, K = 2. -/
def exampleOps : List (Op Int String) :=
  [.put 1 "A", .put 2 "B", .put 3 "C", .put 4 "D", .get 2, .put 3 "C1",
   .get 4, .put 5 "E", .put 6 "F", .put 7 "G", .put 5 "E1"]

/-- A short sequence on a capacity-1, K = 2 cache that promotes key 1, then
promotes key 2, demoting key 1 back to the history region with its full
2-timestamp window. -/
def demoteOps : List (Op Int String) :=
  [.put 1 "a", .get 1, .put 2 "b", .get 2]

/-- The first ten operations of the example trace: they leave the hot region
full with keys `[4, 3, 2]` and the history region holding `[7, 6, 5]`. -/
def c4ops : List (Op Int String) :=
  [.put 1 "A", .put 2 "B", .put 3 "C", .put 4 "D", .get 2, .put 3 "C1",
   .get 4, .put 5 "E", .put 6 "F", .put 7 "G"]

/-- The first three operations of the example trace: they fill the history
region of a capacity-3 cache. -/
def fillOps : List (Op Int String) :=
  [.put 1 "A", .put 2 "B", .put 3 "C"]

/-- Overwriting the stored value of `k` in place, wherever it resides — the
pure "update the value" part of `put` on an existing key. -/
def overwriteValue (st : LRUK_Cache KEY VALUE) (k : KEY) (v : VALUE) :
    LRUK_Cache KEY VALUE :=
  { st with historyList_ := setValueFirst st.historyList_ k v,
            cacheList_ := setValueFirst st.cacheList_ k v }

/-!
## Instrumentation for the promotion law (C3)

The specification speaks of a key's "cumulative recorded access count".
The source keeps no such counter — only the sliding timestamp window — so the
count is defined here as a specification-level function of the trace:
`countRun` replays the operations and counts the accesses recorded for a key
during its current lifetime (a `get`/`put` hit records an access, a `put` of
an unseen key records the first one, eviction and `clear` end the lifetime).
`CountInv` ties that count to the state of the source model: below K the
count and the key's window length agree, and a key in the hot region always
has count at least K.
-/

/-- Does `key` currently reside in either region? -/
def presentIn (st : LRUK_Cache KEY VALUE) (key : KEY) : Prop :=
  key ∈ keysOf st.historyList_ ∨ key ∈ keysOf st.cacheList_

instance {st : LRUK_Cache KEY VALUE} {key : KEY} :
    Decidable (presentIn st key) :=
  inferInstanceAs (Decidable
    (key ∈ keysOf st.historyList_ ∨ key ∈ keysOf st.cacheList_))

/-- One instrumentation step: the cumulative access count of `key` after `op`
runs on `st`, given its count `cnt` before.  A recorded access (a `get` or
`put` hit, or the creating `put`) increments it; losing residency (eviction,
`clear`) resets it to zero. -/
def countStep (key : KEY) (st : LRUK_Cache KEY VALUE) (cnt : Nat)
    (op : Op KEY VALUE) : Nat :=
  if presentIn (step st op) key then
    match op with
    | .get q => if q = key ∧ presentIn st key then cnt + 1 else cnt
    | .put q _ => if q = key then (if presentIn st key then cnt + 1 else 1) else cnt
    | .clear => cnt
  else 0

/-- The cumulative access count of `key` in its current lifetime after
running `ops` from a fresh cache. -/
def countRun (c K : Int) (key : KEY) (ops : List (Op KEY VALUE)) : Nat :=
  (ops.foldl (fun p op => (step p.1 op, countStep key p.1 p.2 op))
    (LRUK_Cache.construct c K, 0)).2

/-- The invariant tying the instrumented count to the cache state. -/
def CountInv (key : KEY) (st : LRUK_Cache KEY VALUE) (cnt : Nat) : Prop :=
  (¬ presentIn st key → cnt = 0) ∧
  (∀ e, findEntry st.historyList_ key = some e →
    e.access_time_.length ≤ cnt ∧
    ((cnt : Int) < st.k_ → cnt = e.access_time_.length)) ∧
  (key ∈ keysOf st.cacheList_ → st.k_ ≤ (cnt : Int))


section ListLemmas

variable (l : List (CacheEntry KEY VALUE)) (k : KEY) (v : VALUE)
variable (e e' : CacheEntry KEY VALUE)

theorem findEntry_eq_none : findEntry l k = none ↔ k ∉ keysOf l := by
  rw [findEntry, List.find?_eq_none]
  simp only [keysOf, List.mem_map, not_exists, not_and, decide_eq_true_eq]

theorem findEntry_some_key (h : findEntry l k = some e) : e.key_ = k := by
  have := List.find?_some h
  simpa using this

theorem findEntry_some_mem (h : findEntry l k = some e) : e ∈ l :=
  List.mem_of_find?_eq_some h

theorem findEntry_isSome_of_mem (h : k ∈ keysOf l) : (findEntry l k).isSome := by
  cases hf : findEntry l k with
  | some e => rfl
  | none => exact absurd h ((findEntry_eq_none l k).mp hf)

theorem keysOf_replaceFirst (hk : e'.key_ = k) :
    keysOf (replaceFirst l k e') = keysOf l := by
  induction l with
  | nil => rfl
  | cons x xs ih =>
    by_cases hx : x.key_ = k
    · simp [replaceFirst, hx, keysOf, hk]
    · simpa [replaceFirst, hx, keysOf] using ih

theorem length_replaceFirst : (replaceFirst l k e').length = l.length := by
  induction l with
  | nil => rfl
  | cons x xs ih =>
    by_cases hx : x.key_ = k
    · simp [replaceFirst, hx]
    · simpa [replaceFirst, hx] using ih

theorem mem_replaceFirst {x : CacheEntry KEY VALUE}
    (h : x ∈ replaceFirst l k e') : x ∈ l ∨ x = e' := by
  induction l with
  | nil => simp [replaceFirst] at h
  | cons y ys ih =>
    by_cases hy : y.key_ = k
    · simp only [replaceFirst, if_pos hy] at h
      rcases List.mem_cons.mp h with h | h
      · exact Or.inr h
      · exact Or.inl (List.mem_cons_of_mem _ h)
    · simp only [replaceFirst, if_neg hy] at h
      rcases List.mem_cons.mp h with h | h
      · exact Or.inl (h ▸ List.mem_cons_self _ _)
      · rcases ih h with h | h
        · exact Or.inl (List.mem_cons_of_mem _ h)
        · exact Or.inr h

theorem keysOf_setValueFirst : keysOf (setValueFirst l k v) = keysOf l := by
  induction l with
  | nil => rfl
  | cons x xs ih =>
    by_cases hx : x.key_ = k
    · simp [setValueFirst, hx, keysOf]
    · simpa [setValueFirst, hx, keysOf] using ih

theorem map_accessTime_setValueFirst :
    (setValueFirst l k v).map (·.access_time_) = l.map (·.access_time_) := by
  induction l with
  | nil => rfl
  | cons x xs ih =>
    by_cases hx : x.key_ = k
    · simp [setValueFirst, hx]
    · simpa [setValueFirst, hx] using ih

theorem map_frontTime_setValueFirst :
    (setValueFirst l k v).map frontTime = l.map frontTime := by
  induction l with
  | nil => rfl
  | cons x xs ih =>
    by_cases hx : x.key_ = k
    · simp [setValueFirst, hx, frontTime]
    · simpa [setValueFirst, hx] using ih

theorem length_setValueFirst : (setValueFirst l k v).length = l.length := by
  induction l with
  | nil => rfl
  | cons x xs ih =>
    by_cases hx : x.key_ = k
    · simp [setValueFirst, hx]
    · simpa [setValueFirst, hx] using ih

theorem mem_setValueFirst {x : CacheEntry KEY VALUE}
    (h : x ∈ setValueFirst l k v) :
    ∃ y ∈ l, x.key_ = y.key_ ∧ x.access_time_ = y.access_time_ := by
  induction l with
  | nil => simp [setValueFirst] at h
  | cons y ys ih =>
    by_cases hy : y.key_ = k
    · simp only [setValueFirst, if_pos hy] at h
      rcases List.mem_cons.mp h with h | h
      · exact ⟨y, List.mem_cons_self _ _, by simp [h]⟩
      · exact ⟨x, List.mem_cons_of_mem _ h, rfl, rfl⟩
    · simp only [setValueFirst, if_neg hy] at h
      rcases List.mem_cons.mp h with h | h
      · exact ⟨y, List.mem_cons_self _ _, by simp [h]⟩
      · rcases ih h with ⟨z, hz, hzz⟩
        exact ⟨z, List.mem_cons_of_mem _ hz, hzz⟩

theorem keysOf_eraseKey : keysOf (eraseKey l k) = (keysOf l).erase k := by
  induction l with
  | nil => rfl
  | cons x xs ih =>
    by_cases hx : x.key_ = k
    · simp [eraseKey, keysOf, List.eraseP_cons, List.erase_cons, hx]
    · simp only [eraseKey, keysOf, List.eraseP_cons, List.erase_cons] at *
      simp [hx, ih, Ne.symm hx]

theorem eraseKey_sublist : List.Sublist (eraseKey l k) l :=
  List.eraseP_sublist l

theorem eraseKey_of_not_mem (h : k ∉ keysOf l) : eraseKey l k = l := by
  apply List.eraseP_of_forall_not
  intro a ha
  simp only [decide_eq_true_eq]
  intro hk
  exact h (hk ▸ List.mem_map_of_mem (·.key_) ha)

theorem sortCache_perm : List.Perm (sortCache l) l :=
  List.perm_insertionSort _ l

theorem keysOf_sortCache_perm : List.Perm (keysOf (sortCache l)) (keysOf l) := by
  unfold keysOf
  exact (sortCache_perm l).map _

theorem mem_sortCache {x : CacheEntry KEY VALUE} : x ∈ sortCache l ↔ x ∈ l :=
  (sortCache_perm l).mem_iff

theorem length_sortCache : (sortCache l).length = l.length :=
  (sortCache_perm l).length_eq

theorem hotSorted_sortCache : hotSorted (sortCache l) := by
  haveI htot : IsTotal (CacheEntry KEY VALUE)
      (fun a b => frontTime b ≤ frontTime a) :=
    ⟨fun a b => Nat.le_total (frontTime b) (frontTime a)⟩
  haveI htr : IsTrans (CacheEntry KEY VALUE)
      (fun a b => frontTime b ≤ frontTime a) :=
    ⟨fun _ _ _ hab hbc => le_trans hbc hab⟩
  have h := List.sorted_insertionSort
    (fun a b : CacheEntry KEY VALUE => frontTime b ≤ frontTime a) l
  unfold hotSorted sortCache
  rw [List.pairwise_map]
  exact h

theorem hotSorted_nil : hotSorted ([] : List (CacheEntry KEY VALUE)) := by
  simp [hotSorted]

theorem mem_keysOf {x : KEY} : x ∈ keysOf l ↔ ∃ e ∈ l, e.key_ = x := by
  simp [keysOf]

theorem key_mem_keysOf (h : e ∈ l) : e.key_ ∈ keysOf l :=
  List.mem_map_of_mem _ h

theorem keysOf_append (l' : List (CacheEntry KEY VALUE)) :
    keysOf (l ++ l') = keysOf l ++ keysOf l' :=
  List.map_append _ _ _

theorem mem_replaceFirst_self (hk : k ∈ keysOf l) :
    e' ∈ replaceFirst l k e' := by
  induction l with
  | nil => simp [keysOf] at hk
  | cons x xs ih =>
    by_cases hx : x.key_ = k
    · simp [replaceFirst, hx]
    · have : k ∈ keysOf xs := by
        rcases (mem_keysOf _).mp hk with ⟨y, hy, hyk⟩
        rcases List.mem_cons.mp hy with h | h
        · exact absurd (h ▸ hyk) hx
        · exact (mem_keysOf _).mpr ⟨y, h, hyk⟩
      simp only [replaceFirst, if_neg hx]
      exact List.mem_cons_of_mem _ (ih this)

end ListLemmas

theorem inv_construct {c k : Int} (hc : 1 ≤ c) (hk : 1 ≤ k) :
    Inv (LRUK_Cache.construct c k : LRUK_Cache KEY VALUE) := by
  constructor <;>
    simp [LRUK_Cache.construct, keysOf, hotSorted_nil, hc, hk] <;> omega

theorem inv_clear {st : LRUK_Cache KEY VALUE} (h : Inv st) :
    Inv (LRUK_Cache.clear st) := by
  have := h.cap_pos
  constructor <;>
    simp [LRUK_Cache.clear, keysOf, hotSorted_nil, h.cap_pos, h.k_pos] <;> omega

theorem inv_setValue_cache {st : LRUK_Cache KEY VALUE} {k : KEY} {v : VALUE}
    (h : Inv st) : Inv { st with cacheList_ := setValueFirst st.cacheList_ k v } := by
  refine ⟨h.cap_pos, h.k_pos, h.hist_le, ?_, h.hist_nodup, ?_, ?_, h.hist_times, ?_, ?_⟩
  · simpa [length_setValueFirst] using h.cache_le
  · simpa [keysOf_setValueFirst] using h.cache_nodup
  · intro a ha
    rw [keysOf_setValueFirst]
    exact h.disj a ha
  · intro e he
    rcases mem_setValueFirst _ _ _ he with ⟨y, hy, _, hyt⟩
    rw [hyt]
    exact h.cache_times y hy
  · show hotSorted (setValueFirst st.cacheList_ k v)
    unfold hotSorted
    rw [map_frontTime_setValueFirst]
    exact h.cache_sorted

theorem inv_setValue_hist {st : LRUK_Cache KEY VALUE} {k : KEY} {v : VALUE}
    (h : Inv st) : Inv { st with historyList_ := setValueFirst st.historyList_ k v } := by
  refine ⟨h.cap_pos, h.k_pos, ?_, h.cache_le, ?_, h.cache_nodup, ?_, ?_,
    h.cache_times, h.cache_sorted⟩
  · simpa [length_setValueFirst] using h.hist_le
  · simpa [keysOf_setValueFirst] using h.hist_nodup
  · intro a ha
    rw [keysOf_setValueFirst] at ha
    exact h.disj a ha
  · intro e he
    rcases mem_setValueFirst _ _ _ he with ⟨y, hy, _, hyt⟩
    rw [hyt]
    exact h.hist_times y hy

/-!
## Branch equations for the two probe functions
-/

theorem getFromCacheList_not_mem {st : LRUK_Cache KEY VALUE} {k : KEY}
    (h : k ∉ keysOf st.cacheList_) :
    LRUK_Cache.getFromCacheList st k = (st, none) := by
  unfold LRUK_Cache.getFromCacheList
  rw [(findEntry_eq_none _ _).mpr h]

theorem getFromCacheList_found {st : LRUK_Cache KEY VALUE} {k : KEY}
    {e : CacheEntry KEY VALUE} (hf : findEntry st.cacheList_ k = some e)
    (hlen : st.k_ < (e.access_time_.length : Int) + 1) :
    LRUK_Cache.getFromCacheList st k =
      (({ st with
            clock := st.clock + 1,
            cacheList_ := sortCache (replaceFirst st.cacheList_ k
              ({ e with access_time_ := (e.access_time_ ++ [st.clock]).tail })) }),
        findEntry (sortCache (replaceFirst st.cacheList_ k
          ({ e with access_time_ := (e.access_time_ ++ [st.clock]).tail }))) k) := by
  unfold LRUK_Cache.getFromCacheList
  rw [hf]
  simp only
  rw [if_pos]
  simp only [List.length_append, List.length_singleton]
  push_cast
  omega

theorem inv_getFromCacheList {st : LRUK_Cache KEY VALUE} {k : KEY}
    (hInv : Inv st) : Inv (LRUK_Cache.getFromCacheList st k).1 := by
  by_cases hmem : k ∈ keysOf st.cacheList_
  · obtain ⟨e, hf⟩ := Option.isSome_iff_exists.mp (findEntry_isSome_of_mem _ _ hmem)
    have hek : e.key_ = k := findEntry_some_key _ _ _ hf
    have hel : e ∈ st.cacheList_ := findEntry_some_mem _ _ _ hf
    have hlen : (e.access_time_.length : Int) = st.k_ := hInv.cache_times e hel
    rw [getFromCacheList_found hf (by omega)]
    set e' : CacheEntry KEY VALUE :=
      { e with access_time_ := (e.access_time_ ++ [st.clock]).tail } with he'
    set mid := replaceFirst st.cacheList_ k e' with hmid
    have hkeys : keysOf mid = keysOf st.cacheList_ :=
      keysOf_replaceFirst _ _ _ (by simp [he', hek])
    have hperm : List.Perm (keysOf (sortCache mid)) (keysOf st.cacheList_) := by
      rw [← hkeys]
      exact keysOf_sortCache_perm _
    refine ⟨hInv.cap_pos, hInv.k_pos, hInv.hist_le, ?_, hInv.hist_nodup, ?_, ?_,
      hInv.hist_times, ?_, ?_⟩
    · simpa [length_sortCache, hmid, length_replaceFirst] using hInv.cache_le
    · exact hperm.nodup_iff.mpr hInv.cache_nodup
    · intro a ha
      rw [hperm.mem_iff]
      exact hInv.disj a ha
    · intro x hx
      rcases mem_replaceFirst _ _ _ ((mem_sortCache _).mp hx) with h | h
      · exact hInv.cache_times x h
      · subst h
        rw [he']
        simp only [List.length_tail, List.length_append, List.length_singleton]
        omega
    · exact hotSorted_sortCache _
  · rw [getFromCacheList_not_mem hmem]
    exact hInv

theorem getFromCacheList_snd_isSome {st : LRUK_Cache KEY VALUE} {k : KEY}
    (hInv : Inv st) (hmem : k ∈ keysOf st.cacheList_) :
    ((LRUK_Cache.getFromCacheList st k).2).isSome := by
  obtain ⟨e, hf⟩ := Option.isSome_iff_exists.mp (findEntry_isSome_of_mem _ _ hmem)
  have hek : e.key_ = k := findEntry_some_key _ _ _ hf
  have hel : e ∈ st.cacheList_ := findEntry_some_mem _ _ _ hf
  have hlen : (e.access_time_.length : Int) = st.k_ := hInv.cache_times e hel
  rw [getFromCacheList_found hf (by omega)]
  apply findEntry_isSome_of_mem
  have hkeys : keysOf (replaceFirst st.cacheList_ k
      ({ e with access_time_ := (e.access_time_ ++ [st.clock]).tail })) =
      keysOf st.cacheList_ :=
    keysOf_replaceFirst _ _ _ (by simp [hek])
  rw [(keysOf_sortCache_perm _).mem_iff, hkeys]
  exact hmem

theorem getFromCacheList_snd_none {st : LRUK_Cache KEY VALUE} {k : KEY}
    (hInv : Inv st) (hnone : (LRUK_Cache.getFromCacheList st k).2 = none) :
    LRUK_Cache.getFromCacheList st k = (st, none) ∧ k ∉ keysOf st.cacheList_ := by
  by_cases hmem : k ∈ keysOf st.cacheList_
  · have := getFromCacheList_snd_isSome hInv hmem
    rw [hnone] at this
    simp at this
  · exact ⟨getFromCacheList_not_mem hmem, hmem⟩

theorem findEntry_eq_some_of_nodup {l : List (CacheEntry KEY VALUE)} {k : KEY}
    {e : CacheEntry KEY VALUE} (hnd : (keysOf l).Nodup) (hel : e ∈ l)
    (hek : e.key_ = k) : findEntry l k = some e := by
  induction l with
  | nil => simp at hel
  | cons x xs ih =>
    by_cases hx : x.key_ = k
    · have hex : e = x := by
        rcases List.mem_cons.mp hel with h | h
        · exact h
        · exfalso
          have : x.key_ ∈ keysOf xs := by
            rw [hx, ← hek]
            exact key_mem_keysOf _ _ h
          simp only [keysOf, List.map_cons, List.nodup_cons] at hnd
          exact hnd.1 this
      simp [findEntry, List.find?_cons, hx, hex]
    · have hends : e ∈ xs := by
        rcases List.mem_cons.mp hel with h | h
        · exact absurd (h ▸ hek) hx
        · exact h
      simp only [keysOf, List.map_cons, List.nodup_cons] at hnd
      simpa [findEntry, List.find?_cons, hx] using
        ih hnd.2 hends

theorem keysOf_nil : keysOf ([] : List (CacheEntry KEY VALUE)) = [] := rfl

theorem keysOf_cons {x : CacheEntry KEY VALUE} {l : List (CacheEntry KEY VALUE)} :
    keysOf (x :: l) = x.key_ :: keysOf l := rfl

theorem mem_eraseKey {x : CacheEntry KEY VALUE} {l : List (CacheEntry KEY VALUE)}
    {k : KEY} (h : x ∈ eraseKey l k) : x ∈ l :=
  (eraseKey_sublist l k).subset h

theorem length_eraseKey_of_mem {l : List (CacheEntry KEY VALUE)} {k : KEY}
    {e : CacheEntry KEY VALUE} (hel : e ∈ l) (hek : e.key_ = k) :
    (eraseKey l k).length = l.length - 1 :=
  List.length_eraseP_of_mem hel (by simp [hek])

theorem getFromHistoryList_not_mem {st : LRUK_Cache KEY VALUE} {k : KEY}
    (h : k ∉ keysOf st.historyList_) :
    LRUK_Cache.getFromHistoryList st k = (st, .notFound) := by
  unfold LRUK_Cache.getFromHistoryList
  rw [(findEntry_eq_none _ _).mpr h]

theorem getFromHistoryList_stay {st : LRUK_Cache KEY VALUE} {k : KEY}
    {e : CacheEntry KEY VALUE} (hf : findEntry st.historyList_ k = some e)
    (hsmall : (e.access_time_.length : Int) + 1 < st.k_) :
    LRUK_Cache.getFromHistoryList st k =
      (({ st with
            clock := st.clock + 1,
            historyList_ := ({ e with access_time_ := e.access_time_ ++ [st.clock] })
              :: eraseKey st.historyList_ k }),
        .inHistory ({ e with access_time_ := e.access_time_ ++ [st.clock] })) := by
  unfold LRUK_Cache.getFromHistoryList
  rw [hf]
  simp only
  rw [if_neg]
  simp only [List.length_append, List.length_singleton, not_le]
  push_cast
  omega

theorem getFromHistoryList_promote_space {st : LRUK_Cache KEY VALUE} {k : KEY}
    {e : CacheEntry KEY VALUE} (hf : findEntry st.historyList_ k = some e)
    (hbig : st.k_ ≤ (e.access_time_.length : Int) + 1)
    (hspace : (st.cacheList_.length : Int) < st.capacity_) :
    LRUK_Cache.getFromHistoryList st k =
      (let times := e.access_time_ ++ [st.clock];
       let e' : CacheEntry KEY VALUE := { e with access_time_ :=
         (if (times.length : Int) > st.k_ then times.tail else times) };
       let newCache := sortCache (st.cacheList_ ++ [e']);
       ({ st with
            clock := st.clock + 1,
            cacheList_ := newCache,
            historyList_ := eraseKey st.historyList_ k },
        match findEntry newCache k with
        | some r => .promoted r
        | none => .notFound)) := by
  unfold LRUK_Cache.getFromHistoryList
  rw [hf]
  simp only
  rw [if_pos, if_pos]
  · exact hspace
  · simp only [List.length_append, List.length_singleton]
    push_cast
    omega

theorem getFromHistoryList_promote_full {st : LRUK_Cache KEY VALUE} {k : KEY}
    {e vict : CacheEntry KEY VALUE} (hf : findEntry st.historyList_ k = some e)
    (hbig : st.k_ ≤ (e.access_time_.length : Int) + 1)
    (hfull : st.capacity_ ≤ (st.cacheList_.length : Int))
    (hlast : st.cacheList_.getLast? = some vict) :
    LRUK_Cache.getFromHistoryList st k =
      (let times := e.access_time_ ++ [st.clock];
       let e' : CacheEntry KEY VALUE := { e with access_time_ :=
         (if (times.length : Int) > st.k_ then times.tail else times) };
       let newCache := sortCache (st.cacheList_.dropLast ++ [e']);
       ({ st with
            clock := st.clock + 1,
            cacheList_ := newCache,
            historyList_ := vict :: eraseKey st.historyList_ k },
        match findEntry newCache k with
        | some r => .promoted r
        | none => .notFound)) := by
  unfold LRUK_Cache.getFromHistoryList
  rw [hf]
  simp only
  rw [if_pos, if_neg, hlast]
  · simp only [not_lt]
    exact hfull
  · simp only [List.length_append, List.length_singleton]
    push_cast
    omega

/-- The remaining branch of `getFromHistoryList`: hot region taken as full but
empty — undefined behaviour in the source (`--end()` of an empty list), which
requires `capacity_ ≤ 0`. -/
theorem getFromHistoryList_promote_empty {st : LRUK_Cache KEY VALUE} {k : KEY}
    {e : CacheEntry KEY VALUE} (hf : findEntry st.historyList_ k = some e)
    (hbig : st.k_ ≤ (e.access_time_.length : Int) + 1)
    (hfull : st.capacity_ ≤ (st.cacheList_.length : Int))
    (hlast : st.cacheList_.getLast? = none) :
    LRUK_Cache.getFromHistoryList st k =
      (let times := e.access_time_ ++ [st.clock];
       let e' : CacheEntry KEY VALUE := { e with access_time_ :=
         (if (times.length : Int) > st.k_ then times.tail else times) };
       let newCache := sortCache [e'];
       ({ st with
            clock := st.clock + 1,
            cacheList_ := newCache,
            historyList_ := eraseKey st.historyList_ k },
        match findEntry newCache k with
        | some r => .promoted r
        | none => .notFound)) := by
  unfold LRUK_Cache.getFromHistoryList
  rw [hf]
  simp only
  rw [if_pos, if_neg, hlast]
  · simp only [not_lt]
    exact hfull
  · simp only [List.length_append, List.length_singleton]
    push_cast
    omega

theorem inv_getFromHistoryList {st : LRUK_Cache KEY VALUE} {k : KEY}
    (hInv : Inv st) (hkc : k ∉ keysOf st.cacheList_) :
    Inv (LRUK_Cache.getFromHistoryList st k).1 := by
  by_cases hmem : k ∈ keysOf st.historyList_
  case neg =>
    rw [getFromHistoryList_not_mem hmem]
    exact hInv
  obtain ⟨e, hf⟩ := Option.isSome_iff_exists.mp (findEntry_isSome_of_mem _ _ hmem)
  have hek : e.key_ = k := findEntry_some_key _ _ _ hf
  have hel : e ∈ st.historyList_ := findEntry_some_mem _ _ _ hf
  obtain ⟨hlen1, hlenk⟩ := hInv.hist_times e hel
  have herasemem : ∀ a, a ∈ keysOf (eraseKey st.historyList_ k) →
      a ≠ k ∧ a ∈ keysOf st.historyList_ := by
    intro a ha
    rw [keysOf_eraseKey] at ha
    exact (hInv.hist_nodup.mem_erase_iff).mp ha
  have herasend : (keysOf (eraseKey st.historyList_ k)).Nodup := by
    rw [keysOf_eraseKey]
    exact hInv.hist_nodup.erase k
  have heraselen : (eraseKey st.historyList_ k).length = st.historyList_.length - 1 :=
    length_eraseKey_of_mem hel hek
  have histpos : 1 ≤ st.historyList_.length :=
    List.length_pos.mpr (List.ne_nil_of_mem hel)
  have herasetimes : ∀ x ∈ eraseKey st.historyList_ k,
      1 ≤ x.access_time_.length ∧ (x.access_time_.length : Int) ≤ st.k_ :=
    fun x hx => hInv.hist_times x (mem_eraseKey hx)
  by_cases hbig : st.k_ ≤ (e.access_time_.length : Int) + 1
  · have htimes' : (((if ((e.access_time_ ++ [st.clock]).length : Int) > st.k_
        then (e.access_time_ ++ [st.clock]).tail
        else e.access_time_ ++ [st.clock]) : List Nat).length : Int) = st.k_ := by
      by_cases hc : ((e.access_time_ ++ [st.clock]).length : Int) > st.k_
      · rw [if_pos hc]
        simp only [List.length_tail, List.length_append, List.length_singleton]
        simp only [List.length_append, List.length_singleton] at hc
        omega
      · rw [if_neg hc]
        simp only [List.length_append, List.length_singleton] at hc ⊢
        omega
    by_cases hspace : (st.cacheList_.length : Int) < st.capacity_
    · rw [getFromHistoryList_promote_space hf hbig hspace]
      simp only
      have hperm : List.Perm
          (keysOf (sortCache (st.cacheList_ ++
            [({ e with access_time_ :=
              (if ((e.access_time_ ++ [st.clock]).length : Int) > st.k_
               then (e.access_time_ ++ [st.clock]).tail
               else e.access_time_ ++ [st.clock]) } : CacheEntry KEY VALUE)])))
          (keysOf st.cacheList_ ++ [k]) := by
        refine (keysOf_sortCache_perm _).trans ?_
        rw [keysOf_append]
        simp [keysOf, hek]
      refine ⟨hInv.cap_pos, hInv.k_pos, ?_, ?_, ?_, ?_, ?_, ?_, ?_, ?_⟩
      · show ((eraseKey st.historyList_ k).length : Int) ≤ st.capacity_
        have := hInv.hist_le
        rw [heraselen]
        omega
      · show ((sortCache _).length : Int) ≤ st.capacity_
        rw [length_sortCache, List.length_append, List.length_singleton]
        omega
      · exact herasend
      · refine hperm.nodup_iff.mpr (List.nodup_append.mpr ⟨hInv.cache_nodup, by simp, ?_⟩)
        intro a ha
        simp only [List.mem_singleton]
        intro hak
        exact hkc (hak ▸ ha)
      · intro a ha
        obtain ⟨hak, hahist⟩ := herasemem a ha
        rw [hperm.mem_iff, List.mem_append, List.mem_singleton]
        push_neg
        exact ⟨hInv.disj a hahist, hak⟩
      · exact herasetimes
      · intro x hx
        rcases List.mem_append.mp ((mem_sortCache _).mp hx) with h | h
        · exact hInv.cache_times x h
        · rw [List.mem_singleton] at h
          rw [h]
          exact htimes'
      · exact hotSorted_sortCache _
    · cases hlast : st.cacheList_.getLast? with
      | none =>
        rw [List.getLast?_eq_none_iff] at hlast
        rw [hlast] at hspace
        have := hInv.cap_pos
        simp at hspace
        omega
      | some vict =>
        have hvictmem : vict ∈ st.cacheList_ := List.mem_of_getLast?_eq_some hlast
        have hsplit : st.cacheList_.dropLast ++ [vict] = st.cacheList_ :=
          List.dropLast_append_getLast? vict hlast
        have hkeysplit : keysOf st.cacheList_.dropLast ++ [vict.key_] =
            keysOf st.cacheList_ := by
          have h1 : ([vict.key_] : List KEY) = keysOf [vict] := rfl
          rw [h1, ← keysOf_append, hsplit]
        have hdlnodup : (keysOf st.cacheList_.dropLast).Nodup := by
          have := hInv.cache_nodup
          rw [← hkeysplit] at this
          exact (List.nodup_append.mp this).1
        have hvictnotdl : vict.key_ ∉ keysOf st.cacheList_.dropLast := by
          have := hInv.cache_nodup
          rw [← hkeysplit] at this
          have hdisj := (List.nodup_append.mp this).2.2
          intro hmem2
          exact hdisj hmem2 (List.mem_singleton_self _)
        have hdlsub : ∀ a, a ∈ keysOf st.cacheList_.dropLast → a ∈ keysOf st.cacheList_ := by
          intro a ha
          rw [← hkeysplit]
          exact List.mem_append_left _ ha
        have hvictcache : vict.key_ ∈ keysOf st.cacheList_ := key_mem_keysOf _ _ hvictmem
        have hvictnothist : vict.key_ ∉ keysOf st.historyList_ := by
          intro hmem2
          exact hInv.disj _ hmem2 hvictcache
        rw [getFromHistoryList_promote_full hf hbig (by omega) hlast]
        simp only
        have hperm : List.Perm
            (keysOf (sortCache (st.cacheList_.dropLast ++
              [({ e with access_time_ :=
                (if ((e.access_time_ ++ [st.clock]).length : Int) > st.k_
                 then (e.access_time_ ++ [st.clock]).tail
                 else e.access_time_ ++ [st.clock]) } : CacheEntry KEY VALUE)])))
            (keysOf st.cacheList_.dropLast ++ [k]) := by
          refine (keysOf_sortCache_perm _).trans ?_
          rw [keysOf_append]
          simp [keysOf, hek]
        have hcachepos : 1 ≤ st.cacheList_.length :=
          List.length_pos.mpr (List.ne_nil_of_mem hvictmem)
        refine ⟨hInv.cap_pos, hInv.k_pos, ?_, ?_, ?_, ?_, ?_, ?_, ?_, ?_⟩
        · show (((vict :: eraseKey st.historyList_ k) : List _).length : Int) ≤ st.capacity_
          rw [List.length_cons, heraselen]
          have := hInv.hist_le
          push_cast
          omega
        · show ((sortCache _).length : Int) ≤ st.capacity_
          rw [length_sortCache, List.length_append, List.length_singleton,
            List.length_dropLast]
          have := hInv.cache_le
          push_cast
          omega
        · rw [keysOf_cons]
          refine List.nodup_cons.mpr ⟨?_, herasend⟩
          intro hmem2
          exact hvictnothist (herasemem _ hmem2).2
        · refine hperm.nodup_iff.mpr (List.nodup_append.mpr ⟨hdlnodup, by simp, ?_⟩)
          intro a ha
          simp only [List.mem_singleton]
          intro hak
          exact hkc (hak ▸ hdlsub a ha)
        · intro a ha
          rw [keysOf_cons, List.mem_cons] at ha
          rw [hperm.mem_iff, List.mem_append, List.mem_singleton]
          push_neg
          rcases ha with ha | ha
          · subst ha
            refine ⟨hvictnotdl, ?_⟩
            intro hak
            exact hkc (hak ▸ hvictcache)
          · obtain ⟨hak, hahist⟩ := herasemem a ha
            exact ⟨fun hmem2 => hInv.disj a hahist (hdlsub a hmem2), hak⟩
        · intro x hx
          rcases List.mem_cons.mp hx with h | h
          · subst h
            have hv := hInv.cache_times x hvictmem
            have hkp := hInv.k_pos
            refine ⟨by omega, ?_⟩
            show (x.access_time_.length : Int) ≤ st.k_
            omega
          · exact herasetimes x h
        · intro x hx
          rcases List.mem_append.mp ((mem_sortCache _).mp hx) with h | h
          · exact hInv.cache_times x ((List.dropLast_sublist _).subset h)
          · rw [List.mem_singleton] at h
            rw [h]
            exact htimes'
        · exact hotSorted_sortCache _
  · rw [getFromHistoryList_stay hf (by omega)]
    simp only
    refine ⟨hInv.cap_pos, hInv.k_pos, ?_, hInv.cache_le, ?_, hInv.cache_nodup, ?_, ?_,
      hInv.cache_times, hInv.cache_sorted⟩
    · show ((({ e with access_time_ := e.access_time_ ++ [st.clock] } : CacheEntry KEY VALUE)
        :: eraseKey st.historyList_ k).length : Int) ≤ st.capacity_
      rw [List.length_cons, heraselen]
      have := hInv.hist_le
      push_cast
      omega
    · rw [keysOf_cons]
      refine List.nodup_cons.mpr ⟨?_, herasend⟩
      show ({ e with access_time_ := e.access_time_ ++ [st.clock] } :
        CacheEntry KEY VALUE).key_ ∉ _
      simp only [hek]
      intro hmem2
      exact (herasemem _ hmem2).1 rfl
    · intro a ha
      rw [keysOf_cons, List.mem_cons] at ha
      rcases ha with ha | ha
      · subst ha
        simpa [hek] using hInv.disj k hmem
      · exact hInv.disj a (herasemem a ha).2
    · intro x hx
      rcases List.mem_cons.mp hx with h | h
      · subst h
        refine ⟨?_, ?_⟩
        · show 1 ≤ (e.access_time_ ++ [st.clock]).length
          simp
        · show ((e.access_time_ ++ [st.clock]).length : Int) ≤ st.k_
          simp only [List.length_append, List.length_singleton]
          push_cast
          omega
      · exact herasetimes x h

theorem k_mem_keysOf_sortCache_append {l : List (CacheEntry KEY VALUE)}
    {e' : CacheEntry KEY VALUE} {k : KEY} (hk : e'.key_ = k) :
    k ∈ keysOf (sortCache (l ++ [e'])) := by
  rw [(keysOf_sortCache_perm _).mem_iff, keysOf_append]
  simp [keysOf, hk]

theorem match_histret_ne_notFound {l : List (CacheEntry KEY VALUE)} {k : KEY}
    (hk : k ∈ keysOf l) :
    (match findEntry l k with
     | some r => LRUK_Cache.HistRet.promoted r
     | none => LRUK_Cache.HistRet.notFound) ≠
      (LRUK_Cache.HistRet.notFound : LRUK_Cache.HistRet KEY VALUE) := by
  obtain ⟨r, hr⟩ := Option.isSome_iff_exists.mp (findEntry_isSome_of_mem _ _ hk)
  rw [hr]
  simp

theorem getFromHistoryList_snd_notFound {st : LRUK_Cache KEY VALUE} {k : KEY}
    (h : (LRUK_Cache.getFromHistoryList st k).2 = .notFound) :
    LRUK_Cache.getFromHistoryList st k = (st, .notFound) ∧
      k ∉ keysOf st.historyList_ := by
  by_cases hmem : k ∈ keysOf st.historyList_
  · exfalso
    obtain ⟨e, hf⟩ := Option.isSome_iff_exists.mp (findEntry_isSome_of_mem _ _ hmem)
    have hek : e.key_ = k := findEntry_some_key _ _ _ hf
    by_cases hbig : st.k_ ≤ (e.access_time_.length : Int) + 1
    · by_cases hspace : (st.cacheList_.length : Int) < st.capacity_
      · rw [getFromHistoryList_promote_space hf hbig hspace] at h
        exact match_histret_ne_notFound (k_mem_keysOf_sortCache_append (by simp [hek])) h
      · cases hlast : st.cacheList_.getLast? with
        | none =>
          rw [getFromHistoryList_promote_empty hf hbig (by omega) hlast] at h
          refine match_histret_ne_notFound (l := sortCache _) ?_ h
          rw [(keysOf_sortCache_perm _).mem_iff]
          simp [keysOf, hek]
        | some vict =>
          rw [getFromHistoryList_promote_full hf hbig (by omega) hlast] at h
          exact match_histret_ne_notFound (k_mem_keysOf_sortCache_append (by simp [hek])) h
    · rw [getFromHistoryList_stay hf (by omega)] at h
      exact LRUK_Cache.HistRet.noConfusion h
  · exact ⟨getFromHistoryList_not_mem hmem, hmem⟩

theorem inv_put {st : LRUK_Cache KEY VALUE} {k : KEY} {v : VALUE}
    (hInv : Inv st) : Inv (LRUK_Cache.put st k v) := by
  rcases hc : LRUK_Cache.getFromCacheList st k with ⟨st1, r⟩
  have h1 : Inv st1 := by
    have := inv_getFromCacheList (k := k) hInv
    rwa [hc] at this
  cases r with
  | some e =>
    simp only [LRUK_Cache.put, hc]
    exact inv_setValue_cache h1
  | none =>
    obtain ⟨heq, hnotc⟩ := getFromCacheList_snd_none hInv (by rw [hc])
    rw [hc] at heq
    have hst1 : st1 = st := congrArg Prod.fst heq
    subst hst1
    rcases hh : LRUK_Cache.getFromHistoryList st1 k with ⟨st2, r2⟩
    have h2 : Inv st2 := by
      have := inv_getFromHistoryList (k := k) h1 hnotc
      rwa [hh] at this
    cases r2 with
    | inHistory e =>
      simp only [LRUK_Cache.put, hc, hh]
      exact inv_setValue_hist h2
    | promoted e =>
      simp only [LRUK_Cache.put, hc, hh]
      exact inv_setValue_cache h2
    | notFound =>
      have hsnd2 : (LRUK_Cache.getFromHistoryList st1 k).2 = .notFound := by
        rw [hh]
      obtain ⟨heq2, hnoth⟩ := getFromHistoryList_snd_notFound hsnd2
      rw [hh] at heq2
      have hst2 : st2 = st1 := congrArg Prod.fst heq2
      subst hst2
      simp only [LRUK_Cache.put, hc, hh]
      have hdlsubkeys : List.Sublist (keysOf st2.historyList_.dropLast)
          (keysOf st2.historyList_) :=
        (List.dropLast_sublist _).map _
      by_cases hlt : (st2.historyList_.length : Int) < st2.capacity_
      · rw [if_pos hlt]
        refine ⟨h2.cap_pos, h2.k_pos, ?_, h2.cache_le, ?_, h2.cache_nodup, ?_, ?_,
          h2.cache_times, h2.cache_sorted⟩
        · show ((st2.historyList_.length + 1 : Nat) : Int) ≤ st2.capacity_
          push_cast
          omega
        · rw [keysOf_cons]
          exact List.nodup_cons.mpr ⟨hnoth, h2.hist_nodup⟩
        · intro a ha
          rw [keysOf_cons, List.mem_cons] at ha
          rcases ha with ha | ha
          · subst ha
            exact hnotc
          · exact h2.disj a ha
        · intro x hx
          rcases List.mem_cons.mp hx with h | h
          · subst h
            have := h2.k_pos
            refine ⟨by simp, ?_⟩
            show (([st2.clock] : List Nat).length : Int) ≤ st2.k_
            simp only [List.length_singleton]
            omega
          · exact h2.hist_times x h
      · rw [if_neg hlt]
        have hc2 := h2.cap_pos
        have hl2 := h2.hist_le
        have hpos : 1 ≤ st2.historyList_.length := by omega
        refine ⟨h2.cap_pos, h2.k_pos, ?_, h2.cache_le, ?_, h2.cache_nodup, ?_, ?_,
          h2.cache_times, h2.cache_sorted⟩
        · show ((st2.historyList_.dropLast.length + 1 : Nat) : Int) ≤ st2.capacity_
          rw [List.length_dropLast]
          push_cast
          omega
        · rw [keysOf_cons]
          refine List.nodup_cons.mpr ⟨?_, h2.hist_nodup.sublist hdlsubkeys⟩
          intro hmem2
          exact hnoth (hdlsubkeys.subset hmem2)
        · intro a ha
          rw [keysOf_cons, List.mem_cons] at ha
          rcases ha with ha | ha
          · subst ha
            exact hnotc
          · exact h2.disj a (hdlsubkeys.subset ha)
        · intro x hx
          rcases List.mem_cons.mp hx with h | h
          · subst h
            have := h2.k_pos
            refine ⟨by simp, ?_⟩
            show (([st2.clock] : List Nat).length : Int) ≤ st2.k_
            simp only [List.length_singleton]
            omega
          · exact h2.hist_times x ((List.dropLast_sublist _).subset h)

theorem inv_get {st : LRUK_Cache KEY VALUE} {k : KEY} (hInv : Inv st) :
    Inv (LRUK_Cache.get st k).1 := by
  rcases hc : LRUK_Cache.getFromCacheList st k with ⟨st1, r⟩
  have h1 : Inv st1 := by
    have := inv_getFromCacheList (k := k) hInv
    rwa [hc] at this
  cases r with
  | some e =>
    simp only [LRUK_Cache.get, hc]
    exact h1
  | none =>
    obtain ⟨heq, hnotc⟩ := getFromCacheList_snd_none hInv (by rw [hc])
    rw [hc] at heq
    have hst1 : st1 = st := congrArg Prod.fst heq
    subst hst1
    rcases hh : LRUK_Cache.getFromHistoryList st1 k with ⟨st2, r2⟩
    have h2 : Inv st2 := by
      have := inv_getFromHistoryList (k := k) h1 hnotc
      rwa [hh] at this
    cases r2 <;> simp only [LRUK_Cache.get, hc, hh] <;> exact h2

theorem inv_step {st : LRUK_Cache KEY VALUE} {op : Op KEY VALUE}
    (hInv : Inv st) : Inv (step st op) := by
  cases op with
  | get k => exact inv_get hInv
  | put k v => exact inv_put hInv
  | clear => exact inv_clear hInv

theorem inv_foldl {ops : List (Op KEY VALUE)} :
    ∀ {st : LRUK_Cache KEY VALUE}, Inv st → Inv (ops.foldl step st) := by
  induction ops with
  | nil => exact fun h => h
  | cons op ops ih => exact fun h => ih (inv_step h)

theorem inv_run {c k : Int} (hc : 1 ≤ c) (hk : 1 ≤ k)
    (ops : List (Op KEY VALUE)) : Inv (run c k ops) :=
  inv_foldl (inv_construct hc hk)

/-!
## Further characterizations used by the individual claims
-/

theorem setValueFirst_of_not_mem {l : List (CacheEntry KEY VALUE)} {k : KEY}
    {v : VALUE} (h : k ∉ keysOf l) : setValueFirst l k v = l := by
  induction l with
  | nil => rfl
  | cons x xs ih =>
    rw [keysOf_cons, List.mem_cons] at h
    push_neg at h
    rw [setValueFirst, if_neg (fun hx => h.1 hx.symm), ih h.2]

theorem frontTime_getLast_min {l : List (CacheEntry KEY VALUE)}
    (hs : hotSorted l) {vict : CacheEntry KEY VALUE}
    (h : l.getLast? = some vict) : ∀ x ∈ l, frontTime vict ≤ frontTime x := by
  intro x hx
  have hsplit : l.dropLast ++ [vict] = l := List.dropLast_append_getLast? vict h
  rw [← hsplit] at hx hs
  unfold hotSorted at hs
  rw [List.map_append, List.pairwise_append] at hs
  rcases List.mem_append.mp hx with hx | hx
  · exact hs.2.2 (frontTime x) (List.mem_map_of_mem _ hx) (frontTime vict) (by simp)
  · rw [List.mem_singleton] at hx
    rw [hx]

/-- Result of a promoting history access, under the invariant: the looked-up
entry `e` moves into the hot region with its window slid to hold exactly `k_`
timestamps, the key leaves the history index, and — precisely when the hot
region is full — the last (stalest) hot entry is moved, unchanged, to the
front of the history region. -/
theorem promote_result {st : LRUK_Cache KEY VALUE} {k : KEY}
    {e : CacheEntry KEY VALUE} (hInv : Inv st) (hkc : k ∉ keysOf st.cacheList_)
    (hf : findEntry st.historyList_ k = some e)
    (hbig : st.k_ ≤ (e.access_time_.length : Int) + 1) :
    ∃ st2 e',
      LRUK_Cache.getFromHistoryList st k = (st2, .promoted e') ∧
      e' = { e with access_time_ :=
        (if ((e.access_time_ ++ [st.clock]).length : Int) > st.k_
         then (e.access_time_ ++ [st.clock]).tail
         else e.access_time_ ++ [st.clock]) } ∧
      findEntry st2.cacheList_ k = some e' ∧
      k ∉ keysOf st2.historyList_ ∧
      st2.clock = st.clock + 1 ∧ st2.capacity_ = st.capacity_ ∧
      st2.k_ = st.k_ ∧
      ((st.cacheList_.length : Int) < st.capacity_ →
        st2.historyList_ = eraseKey st.historyList_ k ∧
        List.Perm (keysOf st2.cacheList_) (k :: keysOf st.cacheList_) ∧
        st2.cacheList_.length = st.cacheList_.length + 1) ∧
      (st.capacity_ ≤ (st.cacheList_.length : Int) →
        ∃ vict, st.cacheList_.getLast? = some vict ∧
          st2.historyList_ = vict :: eraseKey st.historyList_ k ∧
          List.Perm (keysOf st2.cacheList_) (k :: keysOf st.cacheList_.dropLast) ∧
          st2.cacheList_.length = st.cacheList_.length) := by
  have hek : e.key_ = k := findEntry_some_key _ _ _ hf
  have hel : e ∈ st.historyList_ := findEntry_some_mem _ _ _ hf
  have hInv2 : Inv (LRUK_Cache.getFromHistoryList st k).1 :=
    inv_getFromHistoryList hInv hkc
  have hkerase : k ∉ keysOf (eraseKey st.historyList_ k) := by
    rw [keysOf_eraseKey]
    intro hmem2
    exact ((hInv.hist_nodup.mem_erase_iff).mp hmem2).1 rfl
  by_cases hspace : (st.cacheList_.length : Int) < st.capacity_
  · have hInv3 : Inv ({ st with
        clock := st.clock + 1,
        cacheList_ := sortCache (st.cacheList_ ++
          [({ e with access_time_ :=
            (if ((e.access_time_ ++ [st.clock]).length : Int) > st.k_
             then (e.access_time_ ++ [st.clock]).tail
             else e.access_time_ ++ [st.clock]) } : CacheEntry KEY VALUE)]),
        historyList_ := eraseKey st.historyList_ k } : LRUK_Cache KEY VALUE) := by
      rw [getFromHistoryList_promote_space hf hbig hspace] at hInv2
      exact hInv2
    have hfind : findEntry (sortCache (st.cacheList_ ++
        [({ e with access_time_ :=
          (if ((e.access_time_ ++ [st.clock]).length : Int) > st.k_
           then (e.access_time_ ++ [st.clock]).tail
           else e.access_time_ ++ [st.clock]) } : CacheEntry KEY VALUE)])) k =
        some ({ e with access_time_ :=
          (if ((e.access_time_ ++ [st.clock]).length : Int) > st.k_
           then (e.access_time_ ++ [st.clock]).tail
           else e.access_time_ ++ [st.clock]) } : CacheEntry KEY VALUE) := by
      refine findEntry_eq_some_of_nodup hInv3.cache_nodup ?_ (by simp [hek])
      rw [mem_sortCache]
      exact List.mem_append_right _ (List.mem_singleton_self _)
    have hgq : LRUK_Cache.getFromHistoryList st k =
        (({ st with
            clock := st.clock + 1,
            cacheList_ := sortCache (st.cacheList_ ++
              [({ e with access_time_ :=
                (if ((e.access_time_ ++ [st.clock]).length : Int) > st.k_
                 then (e.access_time_ ++ [st.clock]).tail
                 else e.access_time_ ++ [st.clock]) } : CacheEntry KEY VALUE)]),
            historyList_ := eraseKey st.historyList_ k } : LRUK_Cache KEY VALUE),
          .promoted ({ e with access_time_ :=
            (if ((e.access_time_ ++ [st.clock]).length : Int) > st.k_
             then (e.access_time_ ++ [st.clock]).tail
             else e.access_time_ ++ [st.clock]) } : CacheEntry KEY VALUE)) := by
      rw [getFromHistoryList_promote_space hf hbig hspace]
      simp only
      rw [hfind]
    refine ⟨_, _, hgq, rfl, hfind, hkerase, rfl, rfl, rfl, ?_, ?_⟩
    · intro _
      refine ⟨rfl, ?_, ?_⟩
      · refine (keysOf_sortCache_perm _).trans ?_
        rw [keysOf_append]
        refine (List.perm_append_comm).trans ?_
        simp [keysOf, hek]
      · rw [length_sortCache, List.length_append, List.length_singleton]
    · intro hfull
      omega
  · have hfull : st.capacity_ ≤ (st.cacheList_.length : Int) := by omega
    have hne : st.cacheList_ ≠ [] := by
      intro hnil
      rw [hnil] at hfull
      have := hInv.cap_pos
      simp only [List.length_nil, Int.ofNat_zero] at hfull
      omega
    obtain ⟨vict, hlast⟩ :=
      Option.isSome_iff_exists.mp (by rwa [List.getLast?_isSome])
    have hvictmem : vict ∈ st.cacheList_ := List.mem_of_getLast?_eq_some hlast
    have hvictk : vict.key_ ≠ k := by
      intro hvk
      exact hkc (hvk ▸ key_mem_keysOf _ _ hvictmem)
    have hInv3 : Inv ({ st with
        clock := st.clock + 1,
        cacheList_ := sortCache (st.cacheList_.dropLast ++
          [({ e with access_time_ :=
            (if ((e.access_time_ ++ [st.clock]).length : Int) > st.k_
             then (e.access_time_ ++ [st.clock]).tail
             else e.access_time_ ++ [st.clock]) } : CacheEntry KEY VALUE)]),
        historyList_ := vict :: eraseKey st.historyList_ k } :
          LRUK_Cache KEY VALUE) := by
      rw [getFromHistoryList_promote_full hf hbig hfull hlast] at hInv2
      exact hInv2
    have hfind : findEntry (sortCache (st.cacheList_.dropLast ++
        [({ e with access_time_ :=
          (if ((e.access_time_ ++ [st.clock]).length : Int) > st.k_
           then (e.access_time_ ++ [st.clock]).tail
           else e.access_time_ ++ [st.clock]) } : CacheEntry KEY VALUE)])) k =
        some ({ e with access_time_ :=
          (if ((e.access_time_ ++ [st.clock]).length : Int) > st.k_
           then (e.access_time_ ++ [st.clock]).tail
           else e.access_time_ ++ [st.clock]) } : CacheEntry KEY VALUE) := by
      refine findEntry_eq_some_of_nodup hInv3.cache_nodup ?_ (by simp [hek])
      rw [mem_sortCache]
      exact List.mem_append_right _ (List.mem_singleton_self _)
    have hgq : LRUK_Cache.getFromHistoryList st k =
        (({ st with
            clock := st.clock + 1,
            cacheList_ := sortCache (st.cacheList_.dropLast ++
              [({ e with access_time_ :=
                (if ((e.access_time_ ++ [st.clock]).length : Int) > st.k_
                 then (e.access_time_ ++ [st.clock]).tail
                 else e.access_time_ ++ [st.clock]) } : CacheEntry KEY VALUE)]),
            historyList_ := vict :: eraseKey st.historyList_ k } :
              LRUK_Cache KEY VALUE),
          .promoted ({ e with access_time_ :=
            (if ((e.access_time_ ++ [st.clock]).length : Int) > st.k_
             then (e.access_time_ ++ [st.clock]).tail
             else e.access_time_ ++ [st.clock]) } : CacheEntry KEY VALUE)) := by
      rw [getFromHistoryList_promote_full hf hbig hfull hlast]
      simp only
      rw [hfind]
    refine ⟨_, _, hgq, rfl, hfind, ?_, rfl, rfl, rfl, ?_, ?_⟩
    · rw [keysOf_cons, List.mem_cons]
      push_neg
      exact ⟨fun hkv => hvictk hkv.symm, hkerase⟩
    · intro hlt
      omega
    · intro _
      refine ⟨vict, hlast, rfl, ?_, ?_⟩
      · refine (keysOf_sortCache_perm _).trans ?_
        rw [keysOf_append]
        refine (List.perm_append_comm).trans ?_
        simp [keysOf, hek]
      · rw [length_sortCache, List.length_append, List.length_singleton,
          List.length_dropLast]
        have : 1 ≤ st.cacheList_.length := List.length_pos.mpr hne
        omega

theorem getFromCacheList_config (st : LRUK_Cache KEY VALUE) (k : KEY) :
    (LRUK_Cache.getFromCacheList st k).1.capacity_ = st.capacity_ ∧
    (LRUK_Cache.getFromCacheList st k).1.k_ = st.k_ ∧
    (LRUK_Cache.getFromCacheList st k).1.historyList_ = st.historyList_ := by
  unfold LRUK_Cache.getFromCacheList
  cases findEntry st.cacheList_ k with
  | none => exact ⟨rfl, rfl, rfl⟩
  | some e =>
    simp only
    split
    · exact ⟨rfl, rfl, rfl⟩
    · exact ⟨rfl, rfl, rfl⟩

theorem getFromHistoryList_config (st : LRUK_Cache KEY VALUE) (k : KEY) :
    (LRUK_Cache.getFromHistoryList st k).1.capacity_ = st.capacity_ ∧
    (LRUK_Cache.getFromHistoryList st k).1.k_ = st.k_ := by
  unfold LRUK_Cache.getFromHistoryList
  cases findEntry st.historyList_ k with
  | none => exact ⟨rfl, rfl⟩
  | some e =>
    simp only
    split
    · split
      · exact ⟨rfl, rfl⟩
      · split
        · exact ⟨rfl, rfl⟩
        · exact ⟨rfl, rfl⟩
    · exact ⟨rfl, rfl⟩

theorem put_config (st : LRUK_Cache KEY VALUE) (k : KEY) (v : VALUE) :
    (LRUK_Cache.put st k v).capacity_ = st.capacity_ ∧
    (LRUK_Cache.put st k v).k_ = st.k_ := by
  rcases hc : LRUK_Cache.getFromCacheList st k with ⟨st1, r⟩
  have h1 := getFromCacheList_config st k
  rw [hc] at h1
  cases r with
  | some e =>
    simp only [LRUK_Cache.put, hc]
    exact ⟨h1.1, h1.2.1⟩
  | none =>
    rcases hh : LRUK_Cache.getFromHistoryList st1 k with ⟨st2, r2⟩
    have h2 := getFromHistoryList_config st1 k
    rw [hh] at h2
    cases r2 with
    | inHistory e =>
      simp only [LRUK_Cache.put, hc, hh]
      exact ⟨h2.1.trans h1.1, h2.2.trans h1.2.1⟩
    | promoted e =>
      simp only [LRUK_Cache.put, hc, hh]
      exact ⟨h2.1.trans h1.1, h2.2.trans h1.2.1⟩
    | notFound =>
      simp only [LRUK_Cache.put, hc, hh]
      split
      · exact ⟨h2.1.trans h1.1, h2.2.trans h1.2.1⟩
      · exact ⟨h2.1.trans h1.1, h2.2.trans h1.2.1⟩

theorem get_config (st : LRUK_Cache KEY VALUE) (k : KEY) :
    (LRUK_Cache.get st k).1.capacity_ = st.capacity_ ∧
    (LRUK_Cache.get st k).1.k_ = st.k_ := by
  rcases hc : LRUK_Cache.getFromCacheList st k with ⟨st1, r⟩
  have h1 := getFromCacheList_config st k
  rw [hc] at h1
  cases r with
  | some e =>
    simp only [LRUK_Cache.get, hc]
    exact ⟨h1.1, h1.2.1⟩
  | none =>
    rcases hh : LRUK_Cache.getFromHistoryList st1 k with ⟨st2, r2⟩
    have h2 := getFromHistoryList_config st1 k
    rw [hh] at h2
    cases r2 <;> simp only [LRUK_Cache.get, hc, hh] <;>
      exact ⟨h2.1.trans h1.1, h2.2.trans h1.2.1⟩

theorem step_config (st : LRUK_Cache KEY VALUE) (op : Op KEY VALUE) :
    (step st op).capacity_ = st.capacity_ ∧ (step st op).k_ = st.k_ := by
  cases op with
  | get k => exact get_config st k
  | put k v => exact put_config st k v
  | clear => exact ⟨rfl, rfl⟩

theorem run_config (c k : Int) (ops : List (Op KEY VALUE)) :
    (run c k ops).capacity_ = c ∧ (run c k ops).k_ = k := by
  suffices h : ∀ st : LRUK_Cache KEY VALUE,
      (ops.foldl step st).capacity_ = st.capacity_ ∧
      (ops.foldl step st).k_ = st.k_ by
    exact h (LRUK_Cache.construct c k)
  induction ops with
  | nil => exact fun st => ⟨rfl, rfl⟩
  | cons op ops ih =>
    intro st
    have hs := step_config st op
    have ht := ih (step st op)
    exact ⟨ht.1.trans hs.1, ht.2.trans hs.2⟩

/-!
## Claim theorems
-/

/-- C6: starting from an empty cache with C = 3 and K = 2, after
`put(1,"A"), put(2,"B"), put(3,"C"), put(4,"D"), get(2), put(3,"C1"),
get(4), put(5,"E"), put(6,"F"), put(7,"G"), put(5,"E1")` the hot region in
order is `[5, 4, 3]`, key 2 sits at the most-recently-touched (front)
position of the history region, and subsequent `get 7` and `get 4` return
`("G", true)` and `("D", true)` respectively. -/
theorem C6_example_trace :
    keysOf (run 3 2 exampleOps).cacheList_ = [5, 4, 3] ∧
    (keysOf (run 3 2 exampleOps).historyList_).head? = some 2 ∧
    (LRUK_Cache.get (run 3 2 exampleOps) 7).2 = ("G", true) ∧
    (LRUK_Cache.get (LRUK_Cache.get (run 3 2 exampleOps) 7).1 4).2 =
      ("D", true) := by
  decide

/-- C7: in every state reachable by any operation sequence on a cache
constructed with capacity c ≥ 1 and k ≥ 1, the history region holds at most
c entries, the hot region holds at most c entries, and no key is a member of
both regions. -/
theorem C7_region_bounds_and_exclusivity (c k : Int) (hc : 1 ≤ c) (hk : 1 ≤ k)
    (ops : List (Op KEY VALUE)) :
    ((run c k ops).historyList_.length : Int) ≤ c ∧
    ((run c k ops).cacheList_.length : Int) ≤ c ∧
    ∀ a ∈ keysOf (run c k ops).historyList_,
      a ∉ keysOf (run c k ops).cacheList_ := by
  have hInv := inv_run hc hk ops
  have hcap := (run_config c k ops).1
  exact ⟨hInv.hist_le.trans_eq hcap, hInv.cache_le.trans_eq hcap, hInv.disj⟩

/-- Witness for C7 at c = 3, k = 2 and the example trace. -/
theorem C7_witness :
    (1 : Int) ≤ 3 ∧ (1 : Int) ≤ 2 ∧
    (((run 3 2 exampleOps).historyList_.length : Int) ≤ 3 ∧
     ((run 3 2 exampleOps).cacheList_.length : Int) ≤ 3 ∧
     ∀ a ∈ keysOf (run 3 2 exampleOps).historyList_,
       a ∉ keysOf (run 3 2 exampleOps).cacheList_) :=
  ⟨by decide, by decide,
    C7_region_bounds_and_exclusivity 3 2 (by decide) (by decide) exampleOps⟩

/-- C8: in every reachable state, iterating the hot region from front to
back yields entries whose oldest retained timestamp (the K-th most recent
access) is non-increasing: every entry is at least as recent, in that
measure, as every entry after it. -/
theorem C8_hot_region_sorted (c k : Int) (hc : 1 ≤ c) (hk : 1 ≤ k)
    (ops : List (Op KEY VALUE)) :
    ((run c k ops).cacheList_.map frontTime).Pairwise (fun a b => b ≤ a) :=
  (inv_run hc hk ops).cache_sorted

/-- Witness for C8 at c = 3, k = 2 and the example trace. -/
theorem C8_witness :
    (1 : Int) ≤ 3 ∧ (1 : Int) ≤ 2 ∧
    ((run 3 2 exampleOps).cacheList_.map frontTime).Pairwise
      (fun a b => b ≤ a) :=
  ⟨by decide, by decide, C8_hot_region_sorted 3 2 (by decide) (by decide) exampleOps⟩

/-- C2 counterexample: with C = 1 and K = 2, after `demoteOps` the demoted
key 1 sits in the history region with a timestamp window of length 2 = K —
not in the claimed range 1..K-1. -/
theorem C2_counterexample :
    ¬ ∀ e ∈ (run 1 2 demoteOps).historyList_, e.access_time_.length ≤ 2 - 1 := by
  decide

/-- C2 (amended): in every reachable state, hot-region windows hold exactly
K timestamps, and history-region windows hold between 1 and K timestamps
inclusive (length K occurs for entries demoted from the hot region, and, when
K = 1, for freshly inserted entries). -/
theorem C2_window_sizes (c k : Int) (hc : 1 ≤ c) (hk : 1 ≤ k)
    (ops : List (Op KEY VALUE)) :
    (∀ e ∈ (run c k ops).cacheList_, (e.access_time_.length : Int) = k) ∧
    (∀ e ∈ (run c k ops).historyList_,
      1 ≤ e.access_time_.length ∧ (e.access_time_.length : Int) ≤ k) := by
  have hInv := inv_run hc hk ops
  have hkk := (run_config c k ops).2
  refine ⟨fun e he => ?_, fun e he => ⟨(hInv.hist_times e he).1, ?_⟩⟩
  · exact (hInv.cache_times e he).trans hkk
  · exact ((hInv.hist_times e he).2).trans_eq hkk

/-- Witness for C2 at c = 1, k = 2 and the demotion trace. -/
theorem C2_witness :
    (1 : Int) ≤ 1 ∧ (1 : Int) ≤ 2 ∧
    ((∀ e ∈ (run 1 2 demoteOps).cacheList_, (e.access_time_.length : Int) = 2) ∧
     (∀ e ∈ (run 1 2 demoteOps).historyList_,
       1 ≤ e.access_time_.length ∧ (e.access_time_.length : Int) ≤ 2)) :=
  ⟨by decide, by decide, C2_window_sizes 1 2 (by decide) (by decide) demoteOps⟩

/-- C9: the constructor `LRUK_Cache(int c, int k)` performs no validation at
all — called with capacity 0 and k 0 it still produces an ordinary working
cache value (misuse only surfaces later, as undefined eviction behaviour),
instead of failing fast as the claim requires. -/
theorem C9_construct_accepts_nonpositive :
    (LRUK_Cache.construct 0 0 : LRUK_Cache Int String) =
      { capacity_ := 0, k_ := 0, historyList_ := [], cacheList_ := [],
        clock := 0 } := rfl

/-- C5: whenever the history region is at capacity and `put` is called with a
key present in neither region, exactly one history member is evicted — the
tail of the recency ordering — the choice and the result are independent of
the hot region, and the new entry is inserted at the front with a single
recorded timestamp. -/
theorem C5_history_eviction {st : LRUK_Cache KEY VALUE} {k : KEY} {v : VALUE}
    (hInv : Inv st) (hkc : k ∉ keysOf st.cacheList_)
    (hkh : k ∉ keysOf st.historyList_)
    (hfull : st.capacity_ ≤ (st.historyList_.length : Int)) :
    ∃ vict, st.historyList_.getLast? = some vict ∧
      (LRUK_Cache.put st k v).historyList_ =
        ({ key_ := k, value_ := v, access_time_ := [st.clock] } :
          CacheEntry KEY VALUE) :: st.historyList_.dropLast ∧
      vict.key_ ∉ keysOf (LRUK_Cache.put st k v).historyList_ ∧
      (LRUK_Cache.put st k v).cacheList_ = st.cacheList_ ∧
      ∀ cache2 : List (CacheEntry KEY VALUE), k ∉ keysOf cache2 →
        (LRUK_Cache.put { st with cacheList_ := cache2 } k v).historyList_ =
          (LRUK_Cache.put st k v).historyList_ := by
  have hcap := hInv.cap_pos
  have hpos : 1 ≤ st.historyList_.length := by omega
  have hne : st.historyList_ ≠ [] := by
    intro h0
    rw [h0] at hpos
    simp at hpos
  obtain ⟨vict, hlast⟩ :=
    Option.isSome_iff_exists.mp (by rwa [List.getLast?_isSome])
  have hred : ∀ s : LRUK_Cache KEY VALUE, k ∉ keysOf s.cacheList_ →
      k ∉ keysOf s.historyList_ → s.capacity_ ≤ (s.historyList_.length : Int) →
      LRUK_Cache.put s k v = { s with
        historyList_ :=
          ({ key_ := k, value_ := v, access_time_ := [s.clock] } :
            CacheEntry KEY VALUE) :: s.historyList_.dropLast,
        clock := s.clock + 1 } := by
    intro s hc1 hh1 hf1
    rw [LRUK_Cache.put, getFromCacheList_not_mem hc1]
    simp only
    rw [getFromHistoryList_not_mem hh1]
    simp only
    rw [if_neg (by omega)]
  have hsplit : st.historyList_.dropLast ++ [vict] = st.historyList_ :=
    List.dropLast_append_getLast? vict hlast
  have hkeysplit : keysOf st.historyList_.dropLast ++ [vict.key_] =
      keysOf st.historyList_ := by
    have h1 : ([vict.key_] : List KEY) = keysOf [vict] := rfl
    rw [h1, ← keysOf_append, hsplit]
  have hvictnotdl : vict.key_ ∉ keysOf st.historyList_.dropLast := by
    have := hInv.hist_nodup
    rw [← hkeysplit] at this
    have hdisj := (List.nodup_append.mp this).2.2
    intro hmem2
    exact hdisj hmem2 (List.mem_singleton_self _)
  have hvictk : vict.key_ ≠ k := by
    intro hvk
    apply hkh
    rw [← hvk, ← hkeysplit]
    exact List.mem_append_right _ (List.mem_singleton_self _)
  refine ⟨vict, hlast, ?_, ?_, ?_, ?_⟩
  · rw [hred st hkc hkh hfull]
  · rw [hred st hkc hkh hfull]
    simp only [keysOf_cons, List.mem_cons]
    push_neg
    exact ⟨hvictk, hvictnotdl⟩
  · rw [hred st hkc hkh hfull]
  · intro cache2 hk2
    rw [hred st hkc hkh hfull, hred { st with cacheList_ := cache2 } hk2 hkh hfull]

/-- Witness for C5: on the capacity-3 cache whose history region holds keys
`[3, 2, 1]`, `put 4 "D"` evicts the tail (key 1). -/
theorem C5_witness :
    Inv (run 3 2 fillOps) ∧
    (4 : Int) ∉ keysOf (run 3 2 fillOps).cacheList_ ∧
    (4 : Int) ∉ keysOf (run 3 2 fillOps).historyList_ ∧
    (run 3 2 fillOps).capacity_ ≤ ((run 3 2 fillOps).historyList_.length : Int) ∧
    (∃ vict, (run 3 2 fillOps).historyList_.getLast? = some vict ∧
      (LRUK_Cache.put (run 3 2 fillOps) 4 "D").historyList_ =
        ({ key_ := 4, value_ := "D", access_time_ := [(run 3 2 fillOps).clock] } :
          CacheEntry Int String) :: (run 3 2 fillOps).historyList_.dropLast ∧
      vict.key_ ∉ keysOf (LRUK_Cache.put (run 3 2 fillOps) 4 "D").historyList_ ∧
      (LRUK_Cache.put (run 3 2 fillOps) 4 "D").cacheList_ =
        (run 3 2 fillOps).cacheList_ ∧
      ∀ cache2 : List (CacheEntry Int String), (4 : Int) ∉ keysOf cache2 →
        (LRUK_Cache.put { run 3 2 fillOps with cacheList_ := cache2 } 4 "D").historyList_ =
          (LRUK_Cache.put (run 3 2 fillOps) 4 "D").historyList_) :=
  ⟨inv_run (by decide) (by decide) fillOps, by decide, by decide, by decide,
    C5_history_eviction (inv_run (by decide) (by decide) fillOps)
      (by decide) (by decide) (by decide)⟩

/-- C4: whenever the hot region is full and a history access promotes an
entry, exactly one hot member is demoted: the entry sorting last, whose
oldest-of-last-K timestamp is the most stale of the whole hot region; it is
re-inserted, completely unchanged, at the front of the history region, while
the hot region keeps its size, losing only the victim and gaining the
promoted key. -/
theorem C4_hot_demotion {st : LRUK_Cache KEY VALUE} {k : KEY}
    {e : CacheEntry KEY VALUE} (hInv : Inv st)
    (hf : findEntry st.historyList_ k = some e)
    (hbig : st.k_ ≤ (e.access_time_.length : Int) + 1)
    (hfull : st.capacity_ ≤ (st.cacheList_.length : Int)) :
    ∃ vict, st.cacheList_.getLast? = some vict ∧
      (∀ x ∈ st.cacheList_, frontTime vict ≤ frontTime x) ∧
      (LRUK_Cache.getFromHistoryList st k).1.historyList_ =
        vict :: eraseKey st.historyList_ k ∧
      List.Perm (keysOf (LRUK_Cache.getFromHistoryList st k).1.cacheList_)
        (k :: keysOf st.cacheList_.dropLast) ∧
      (LRUK_Cache.getFromHistoryList st k).1.cacheList_.length =
        st.cacheList_.length := by
  have hkc : k ∉ keysOf st.cacheList_ := by
    have hmem : k ∈ keysOf st.historyList_ := by
      rw [mem_keysOf]
      exact ⟨e, findEntry_some_mem _ _ _ hf, findEntry_some_key _ _ _ hf⟩
    exact hInv.disj k hmem
  obtain ⟨st2, e', hgq, -, -, -, -, -, -, -, hfc⟩ := promote_result hInv hkc hf hbig
  obtain ⟨vict, hlast, hhist, hperm, hlen⟩ := hfc hfull
  refine ⟨vict, hlast, frontTime_getLast_min hInv.cache_sorted hlast, ?_, ?_, ?_⟩ <;>
    rw [hgq]
  · exact hhist
  · exact hperm
  · exact hlen

/-- Witness for C4: on the state after `c4ops` (hot `[4, 3, 2]` full, history
`[7, 6, 5]`), accessing key 5 promotes it and demotes key 2, the stalest hot
member. -/
theorem C4_witness :
    Inv (run 3 2 c4ops) ∧
    findEntry (run 3 2 c4ops).historyList_ 5 =
      some ({ key_ := 5, value_ := "E", access_time_ := [7] } :
        CacheEntry Int String) ∧
    (run 3 2 c4ops).k_ ≤
      (([7] : List Nat).length : Int) + 1 ∧
    (run 3 2 c4ops).capacity_ ≤ ((run 3 2 c4ops).cacheList_.length : Int) ∧
    (∃ vict, (run 3 2 c4ops).cacheList_.getLast? = some vict ∧
      (∀ x ∈ (run 3 2 c4ops).cacheList_, frontTime vict ≤ frontTime x) ∧
      (LRUK_Cache.getFromHistoryList (run 3 2 c4ops) 5).1.historyList_ =
        vict :: eraseKey (run 3 2 c4ops).historyList_ 5 ∧
      List.Perm
        (keysOf (LRUK_Cache.getFromHistoryList (run 3 2 c4ops) 5).1.cacheList_)
        (5 :: keysOf (run 3 2 c4ops).cacheList_.dropLast) ∧
      (LRUK_Cache.getFromHistoryList (run 3 2 c4ops) 5).1.cacheList_.length =
        (run 3 2 c4ops).cacheList_.length) :=
  ⟨inv_run (by decide) (by decide) c4ops, by decide, by decide, by decide,
    C4_hot_demotion (k := 5)
      (e := { key_ := 5, value_ := "E", access_time_ := [7] })
      (inv_run (by decide) (by decide) c4ops)
      (by decide) (by decide) (by decide)⟩

/-- C10: for a key residing in the history region with a timestamp window of
full length K (the state a demotion from the hot region produces), a single
`get` of that key records one new timestamp, drops the oldest, and
immediately promotes the entry back into the hot region — it does not need
to re-accumulate K accesses. -/
theorem C10_repromotion_after_demotion {st : LRUK_Cache KEY VALUE} {k : KEY}
    {e : CacheEntry KEY VALUE} (hInv : Inv st)
    (hf : findEntry st.historyList_ k = some e)
    (hK : (e.access_time_.length : Int) = st.k_) :
    k ∉ keysOf (LRUK_Cache.get st k).1.historyList_ ∧
    findEntry (LRUK_Cache.get st k).1.cacheList_ k =
      some ({ e with access_time_ := e.access_time_.tail ++ [st.clock] }) ∧
    (LRUK_Cache.get st k).2 = (e.value_, true) := by
  have hkc : k ∉ keysOf st.cacheList_ := by
    have hmem : k ∈ keysOf st.historyList_ := by
      rw [mem_keysOf]
      exact ⟨e, findEntry_some_mem _ _ _ hf, findEntry_some_key _ _ _ hf⟩
    exact hInv.disj k hmem
  have hkp := hInv.k_pos
  obtain ⟨st2, e', hgq, he', hfind, hnothist, -, -, -, -, -⟩ :=
    promote_result hInv hkc hf (by omega)
  have htne : e.access_time_ ≠ [] := by
    intro h0
    rw [h0] at hK
    simp only [List.length_nil, Int.ofNat_zero] at hK
    omega
  have hcond : ((e.access_time_ ++ [st.clock]).length : Int) > st.k_ := by
    simp only [List.length_append, List.length_singleton]
    push_cast
    omega
  have he2 : e' = { e with access_time_ := e.access_time_.tail ++ [st.clock] } := by
    rw [he', if_pos hcond, List.tail_append_of_ne_nil htne]
  have hget : LRUK_Cache.get st k = (st2, e'.value_, true) := by
    unfold LRUK_Cache.get
    rw [getFromCacheList_not_mem hkc]
    simp only
    rw [hgq]
  refine ⟨?_, ?_, ?_⟩
  · rw [hget]
    exact hnothist
  · rw [hget, ← he2]
    exact hfind
  · rw [hget, he2]

/-- Witness for C10: after `demoteOps` (C = 1, K = 2), key 1 sits in history
with the 2-timestamp window `[0, 1]`; one `get 1` re-promotes it with window
`[1, 4]`. -/
theorem C10_witness :
    Inv (run 1 2 demoteOps) ∧
    findEntry (run 1 2 demoteOps).historyList_ 1 =
      some ({ key_ := 1, value_ := "a", access_time_ := [0, 1] } :
        CacheEntry Int String) ∧
    ((([0, 1] : List Nat).length : Int) = (run 1 2 demoteOps).k_) ∧
    ((1 : Int) ∉ keysOf (LRUK_Cache.get (run 1 2 demoteOps) 1).1.historyList_ ∧
     findEntry (LRUK_Cache.get (run 1 2 demoteOps) 1).1.cacheList_ 1 =
       some ({ key_ := 1, value_ := "a",
               access_time_ := ([0, 1] : List Nat).tail ++ [(run 1 2 demoteOps).clock] }) ∧
     (LRUK_Cache.get (run 1 2 demoteOps) 1).2 = ("a", true)) :=
  ⟨inv_run (by decide) (by decide) demoteOps, by decide, by decide,
    @C10_repromotion_after_demotion Int String _ _ (run 1 2 demoteOps) 1
      { key_ := 1, value_ := "a", access_time_ := [0, 1] }
      (inv_run (by decide) (by decide) demoteOps) (by decide) (by decide)⟩

/-- C1 counterexample: with C = 3 and K = 2, after `put 1 "A"` key 1 sits in
the history region with one recorded timestamp; the overwriting `put 1 "B"`
records a second timestamp and promotes key 1 into the hot region — state
changes the claim says cannot happen on a `put` of an existing key. -/
theorem C1_counterexample :
    keysOf (run 3 2 [Op.put 1 "A"]).historyList_ = [1] ∧
    keysOf (run 3 2 [Op.put 1 "A", Op.put 1 "B"]).cacheList_ = [1] ∧
    (run 3 2 [Op.put 1 "A", Op.put 1 "B"]).cacheList_.map
      (fun e => e.access_time_.length) = [2] := by
  decide

/-- `put` on a present key equals `get` on that key followed by the pure
value overwrite. -/
theorem put_eq_get_overwrite {st : LRUK_Cache KEY VALUE} {k : KEY} {v : VALUE}
    (hInv : Inv st)
    (hk : k ∈ keysOf st.cacheList_ ∨ k ∈ keysOf st.historyList_) :
    LRUK_Cache.put st k v = overwriteValue (LRUK_Cache.get st k).1 k v := by
  rcases hcp : LRUK_Cache.getFromCacheList st k with ⟨st1, r⟩
  cases r with
  | some ec =>
    have hh1 : st1.historyList_ = st.historyList_ := by
      have h := (getFromCacheList_config st k).2.2
      rw [hcp] at h
      exact h
    have hkc : k ∈ keysOf st.cacheList_ := by
      by_contra hmem
      rw [getFromCacheList_not_mem hmem] at hcp
      exact Option.noConfusion (congrArg Prod.snd hcp)
    have hknothist : k ∉ keysOf st1.historyList_ := by
      rw [hh1]
      intro hmem
      exact hInv.disj k hmem hkc
    simp only [LRUK_Cache.put, LRUK_Cache.get, hcp]
    unfold overwriteValue
    rw [setValueFirst_of_not_mem hknothist]
  | none =>
    have hsnd : (LRUK_Cache.getFromCacheList st k).2 = none := by rw [hcp]
    obtain ⟨heq, hknotc⟩ := getFromCacheList_snd_none hInv hsnd
    rw [hcp] at heq
    have hst1 : st1 = st := congrArg Prod.fst heq
    rw [hst1] at hcp
    have hkh : k ∈ keysOf st.historyList_ := hk.resolve_left hknotc
    obtain ⟨e, hf⟩ := Option.isSome_iff_exists.mp (findEntry_isSome_of_mem _ _ hkh)
    by_cases hbig : st.k_ ≤ (e.access_time_.length : Int) + 1
    · obtain ⟨st2, e', hgq, -, -, hnothist, -, -, -, -, -⟩ :=
        promote_result hInv hknotc hf hbig
      simp only [LRUK_Cache.put, LRUK_Cache.get, hcp, hgq]
      unfold overwriteValue
      rw [setValueFirst_of_not_mem hnothist]
    · have hstay := getFromHistoryList_stay hf (by omega)
      simp only [LRUK_Cache.put, LRUK_Cache.get, hcp, hstay]
      unfold overwriteValue
      rw [setValueFirst_of_not_mem (show k ∉ keysOf st.cacheList_ from hknotc)]

/-- C1 (amended): for a key present in either region, `put k v` behaves
exactly like `get k` followed by overwriting the stored value in place — in
particular the `put` records a fresh access timestamp and can re-sort the hot
region, promote the entry, and trigger a demotion, exactly as a `get`
would. -/
theorem C1_put_acts_as_get {st : LRUK_Cache KEY VALUE} {k : KEY} {v : VALUE}
    (hInv : Inv st)
    (hk : k ∈ keysOf st.cacheList_ ∨ k ∈ keysOf st.historyList_) :
    LRUK_Cache.put st k v = overwriteValue (LRUK_Cache.get st k).1 k v :=
  put_eq_get_overwrite hInv hk

/-- Witness for C1 at the state after `put 1 "A"` (key 1 in history):
overwriting it with `put 1 "B"` equals `get 1` followed by the value
overwrite. -/
theorem C1_witness :
    Inv (run 3 2 [Op.put 1 "A"]) ∧
    ((1 : Int) ∈ keysOf (run 3 2 [Op.put 1 "A"]).cacheList_ ∨
     (1 : Int) ∈ keysOf (run 3 2 [Op.put 1 "A"]).historyList_) ∧
    LRUK_Cache.put (run 3 2 [Op.put 1 "A"]) 1 "B" =
      overwriteValue (LRUK_Cache.get (run 3 2 [Op.put 1 "A"]) 1).1 1 "B" :=
  ⟨inv_run (by decide) (by decide) _, by decide,
    C1_put_acts_as_get (inv_run (by decide) (by decide) _) (by decide)⟩

theorem findEntry_cons_self {e : CacheEntry KEY VALUE}
    {l : List (CacheEntry KEY VALUE)} {q : KEY} (h : e.key_ = q) :
    findEntry (e :: l) q = some e := by
  simp [findEntry, List.find?_cons_of_pos, h]

theorem findEntry_cons_ne {x : CacheEntry KEY VALUE}
    {l : List (CacheEntry KEY VALUE)} {key : KEY} (h : x.key_ ≠ key) :
    findEntry (x :: l) key = findEntry l key := by
  simp [findEntry, List.find?_cons_of_neg, h]

theorem findEntry_eraseKey_ne {l : List (CacheEntry KEY VALUE)} {q key : KEY}
    (h : key ≠ q) : findEntry (eraseKey l q) key = findEntry l key := by
  induction l with
  | nil => rfl
  | cons x xs ih =>
    by_cases hx : x.key_ = q
    · rw [show eraseKey (x :: xs) q = xs by simp [eraseKey, List.eraseP_cons, hx],
        findEntry_cons_ne (by rw [hx]; exact fun hh => h hh.symm)]
    · rw [show eraseKey (x :: xs) q = x :: eraseKey xs q by
        simp [eraseKey, List.eraseP_cons, hx]]
      by_cases hxk : x.key_ = key
      · rw [findEntry_cons_self hxk, findEntry_cons_self hxk]
      · rw [findEntry_cons_ne hxk, findEntry_cons_ne hxk, ih]

theorem findEntry_setValueFirst_ne {l : List (CacheEntry KEY VALUE)}
    {q key : KEY} {v : VALUE} (h : key ≠ q) :
    findEntry (setValueFirst l q v) key = findEntry l key := by
  induction l with
  | nil => rfl
  | cons x xs ih =>
    by_cases hx : x.key_ = q
    · rw [show setValueFirst (x :: xs) q v = { x with value_ := v } :: xs by
        simp [setValueFirst, hx]]
      rw [findEntry_cons_ne (by simp only; rw [hx]; exact fun hh => h hh.symm),
        findEntry_cons_ne (hx ▸ fun hh => h hh.symm)]
    · rw [show setValueFirst (x :: xs) q v = x :: setValueFirst xs q v by
        simp [setValueFirst, hx]]
      by_cases hxk : x.key_ = key
      · rw [findEntry_cons_self hxk, findEntry_cons_self hxk]
      · rw [findEntry_cons_ne hxk, findEntry_cons_ne hxk, ih]

theorem findEntry_setValueFirst_self {l : List (CacheEntry KEY VALUE)}
    {q : KEY} {v : VALUE} :
    findEntry (setValueFirst l q v) q =
      (findEntry l q).map (fun e => { e with value_ := v }) := by
  induction l with
  | nil => rfl
  | cons x xs ih =>
    by_cases hx : x.key_ = q
    · rw [show setValueFirst (x :: xs) q v = { x with value_ := v } :: xs by
        simp [setValueFirst, hx]]
      rw [findEntry_cons_self (by simp only; exact hx), findEntry_cons_self hx]
      rfl
    · rw [show setValueFirst (x :: xs) q v = x :: setValueFirst xs q v by
        simp [setValueFirst, hx]]
      rw [findEntry_cons_ne hx, findEntry_cons_ne hx, ih]

theorem presentIn_overwrite {s : LRUK_Cache KEY VALUE} {q key : KEY}
    {v : VALUE} : presentIn (overwriteValue s q v) key ↔ presentIn s key := by
  unfold presentIn overwriteValue
  rw [keysOf_setValueFirst, keysOf_setValueFirst]

theorem countInv_overwrite {key q : KEY} {v : VALUE}
    {s : LRUK_Cache KEY VALUE} {n : Nat} (h : CountInv key s n) :
    CountInv key (overwriteValue s q v) n := by
  obtain ⟨h1, h2, h3⟩ := h
  refine ⟨?_, ?_, ?_⟩
  · intro hnp
    exact h1 (fun hp => hnp (presentIn_overwrite.mpr hp))
  · intro e he
    show e.access_time_.length ≤ n ∧ ((n : Int) < s.k_ → n = e.access_time_.length)
    by_cases hkq : key = q
    · subst hkq
      rw [show (overwriteValue s key v).historyList_ =
          setValueFirst s.historyList_ key v from rfl,
        findEntry_setValueFirst_self] at he
      cases hfe : findEntry s.historyList_ key with
      | none => rw [hfe] at he; exact Option.noConfusion he
      | some e0 =>
        rw [hfe] at he
        have he0 : e = { e0 with value_ := v } := (Option.some.injEq _ _).mp he.symm
        have := h2 e0 hfe
        rw [he0]
        exact this
    · rw [show (overwriteValue s q v).historyList_ =
          setValueFirst s.historyList_ q v from rfl,
        findEntry_setValueFirst_ne hkq] at he
      exact h2 e he
  · intro hc
    rw [show (overwriteValue s q v).cacheList_ =
        setValueFirst s.cacheList_ q v from rfl, keysOf_setValueFirst] at hc
    exact h3 hc

theorem countInv_get {key q : KEY} {st : LRUK_Cache KEY VALUE} {cnt : Nat}
    (hInv : Inv st) (hci : CountInv key st cnt) :
    CountInv key (step st (Op.get q)) (countStep key st cnt (Op.get q)) := by
  obtain ⟨hc0, hch, hcc⟩ := hci
  unfold countStep
  by_cases hpres : presentIn (step st (Op.get q)) key
  case neg =>
    rw [if_neg hpres]
    refine ⟨fun _ => rfl, fun e he => ?_, fun hc => absurd (Or.inr hc) hpres⟩
    exact absurd (Or.inl ((mem_keysOf _).mpr
      ⟨e, findEntry_some_mem _ _ _ he, findEntry_some_key _ _ _ he⟩)) hpres
  rw [if_pos hpres]
  simp only
  by_cases hqc : q ∈ keysOf st.cacheList_
  · -- hot-region hit
    obtain ⟨eq, hfq⟩ := Option.isSome_iff_exists.mp (findEntry_isSome_of_mem _ _ hqc)
    have hqek : eq.key_ = q := findEntry_some_key _ _ _ hfq
    have hlenq : (eq.access_time_.length : Int) = st.k_ :=
      hInv.cache_times eq (findEntry_some_mem _ _ _ hfq)
    have hgc := getFromCacheList_found hfq (by omega)
    have hkeyseq : keysOf (sortCache (replaceFirst st.cacheList_ q
        ({ eq with access_time_ := (eq.access_time_ ++ [st.clock]).tail }))) =
          keysOf st.cacheList_ ∨ True := Or.inr trivial
    have hperm : List.Perm (keysOf (sortCache (replaceFirst st.cacheList_ q
        ({ eq with access_time_ := (eq.access_time_ ++ [st.clock]).tail }))))
        (keysOf st.cacheList_) := by
      refine (keysOf_sortCache_perm _).trans ?_
      rw [keysOf_replaceFirst _ _ _ (by simp [hqek])]
    obtain ⟨r, hr⟩ := Option.isSome_iff_exists.mp
      (findEntry_isSome_of_mem _ _ (hperm.mem_iff.mpr hqc))
    have hstep : step st (Op.get q) =
        { st with
            clock := st.clock + 1,
            cacheList_ := sortCache (replaceFirst st.cacheList_ q
              ({ eq with access_time_ := (eq.access_time_ ++ [st.clock]).tail })) } := by
      simp only [step, LRUK_Cache.get, hgc, hr]
    rw [hstep] at hpres ⊢
    by_cases hkq : q = key
    · rw [if_pos ⟨hkq, Or.inr (hkq ▸ hqc)⟩]
      refine ⟨fun hnp => absurd hpres hnp, fun e he => ?_, fun _ => ?_⟩
      · exfalso
        refine hInv.disj key ?_ (hkq ▸ hqc)
        exact (mem_keysOf _).mpr
          ⟨e, findEntry_some_mem _ _ _ he, findEntry_some_key _ _ _ he⟩
      · have := hcc (hkq ▸ hqc)
        show st.k_ ≤ ((cnt + 1 : Nat) : Int)
        push_cast
        omega
    · rw [if_neg (fun hh => hkq hh.1)]
      refine ⟨fun hnp => absurd hpres hnp, fun e he => hch e he, fun hc => ?_⟩
      exact hcc (hperm.mem_iff.mp hc)
  · by_cases hqh : q ∈ keysOf st.historyList_
    · obtain ⟨e, hf⟩ := Option.isSome_iff_exists.mp (findEntry_isSome_of_mem _ _ hqh)
      have hek : e.key_ = q := findEntry_some_key _ _ _ hf
      by_cases hbig : st.k_ ≤ (e.access_time_.length : Int) + 1
      · -- history hit that promotes
        obtain ⟨st2, e', hgq, he', hfind, hnothist, hclk, hcap2, hkk2, hsp, hfl⟩ :=
          promote_result hInv hqc hf hbig
        have hstep : step st (Op.get q) = st2 := by
          simp only [step, LRUK_Cache.get, getFromCacheList_not_mem hqc, hgq]
        have hqcache2 : q ∈ keysOf st2.cacheList_ := (mem_keysOf _).mpr
          ⟨e', findEntry_some_mem _ _ _ hfind, findEntry_some_key _ _ _ hfind⟩
        rw [hstep] at hpres ⊢
        by_cases hkq : q = key
        · rw [if_pos ⟨hkq, Or.inl (hkq ▸ hqh)⟩]
          refine ⟨fun hnp => absurd hpres hnp, fun e0 he0 => ?_, fun _ => ?_⟩
          · exact absurd he0 (by
              rw [(findEntry_eq_none _ _).mpr (hkq ▸ hnothist)]
              exact Option.noConfusion)
          · have h1 := (hch e (hkq ▸ hf)).1
            rw [hkk2]
            show st.k_ ≤ ((cnt + 1 : Nat) : Int)
            push_cast
            omega
        · rw [if_neg (fun hh => hkq hh.1)]
          refine ⟨fun hnp => absurd hpres hnp, fun e0 he0 => ?_, fun hc => ?_⟩
          · by_cases hspace : (st.cacheList_.length : Int) < st.capacity_
            · obtain ⟨hh2, -, -⟩ := hsp hspace
              rw [hh2, findEntry_eraseKey_ne (fun hh => hkq hh.symm)] at he0
              rw [hkk2]
              exact hch e0 he0
            · obtain ⟨vict, hlast, hh2, -, -⟩ := hfl (by omega)
              rw [hh2] at he0
              by_cases hvk : vict.key_ = key
              · rw [findEntry_cons_self hvk] at he0
                have he0v : e0 = vict := (Option.some.injEq _ _).mp he0.symm
                have hkc2 : key ∈ keysOf st.cacheList_ := by
                  rw [← hvk]
                  exact key_mem_keysOf _ _ (List.mem_of_getLast?_eq_some hlast)
                have hKcnt := hcc hkc2
                have hvlen : (vict.access_time_.length : Int) = st.k_ :=
                  hInv.cache_times vict (List.mem_of_getLast?_eq_some hlast)
                rw [hkk2, he0v]
                constructor
                · omega
                · intro hcon
                  omega
              · rw [findEntry_cons_ne hvk,
                  findEntry_eraseKey_ne (fun hh => hkq hh.symm)] at he0
                rw [hkk2]
                exact hch e0 he0
          · by_cases hspace : (st.cacheList_.length : Int) < st.capacity_
            · obtain ⟨-, hperm2, -⟩ := hsp hspace
              rcases List.mem_cons.mp (hperm2.mem_iff.mp hc) with hh | hh
              · exact absurd hh.symm hkq
              · rw [hkk2]
                exact hcc hh
            · obtain ⟨vict, hlast, -, hperm2, -⟩ := hfl (by omega)
              rcases List.mem_cons.mp (hperm2.mem_iff.mp hc) with hh | hh
              · exact absurd hh.symm hkq
              · rw [hkk2]
                refine hcc ?_
                have hsplit : st.cacheList_.dropLast ++ [vict] = st.cacheList_ :=
                  List.dropLast_append_getLast? vict hlast
                rw [← hsplit, keysOf_append]
                exact List.mem_append_left _ hh
      · -- history hit that stays in history
        have hstay := getFromHistoryList_stay hf (by omega)
        have hstep : step st (Op.get q) =
            { st with
                clock := st.clock + 1,
                historyList_ := ({ e with access_time_ := e.access_time_ ++ [st.clock] })
                  :: eraseKey st.historyList_ q } := by
          simp only [step, LRUK_Cache.get, getFromCacheList_not_mem hqc, hstay]
        rw [hstep] at hpres ⊢
        by_cases hkq : q = key
        · rw [if_pos ⟨hkq, Or.inl (hkq ▸ hqh)⟩]
          refine ⟨fun hnp => absurd hpres hnp, fun e0 he0 => ?_, fun hc => ?_⟩
          · rw [show ({ st with
                clock := st.clock + 1,
                historyList_ := ({ e with access_time_ := e.access_time_ ++ [st.clock] })
                  :: eraseKey st.historyList_ q } :
                  LRUK_Cache KEY VALUE).historyList_ =
                ({ e with access_time_ := e.access_time_ ++ [st.clock] })
                  :: eraseKey st.historyList_ q from rfl,
              findEntry_cons_self (hkq ▸ hek)] at he0
            have he0e : e0 = { e with access_time_ := e.access_time_ ++ [st.clock] } :=
              (Option.some.injEq _ _).mp he0.symm
            obtain ⟨h1, h2⟩ := hch e (hkq ▸ hf)
            subst he0e
            show (e.access_time_ ++ [st.clock]).length ≤ cnt + 1 ∧
              (((cnt + 1 : Nat) : Int) < st.k_ → cnt + 1 = (e.access_time_ ++ [st.clock]).length)
            rw [List.length_append, List.length_singleton]
            constructor
            · omega
            · intro hlt
              have : (cnt : Int) < st.k_ := by push_cast at hlt ⊢; omega
              have := h2 this
              omega
          · exact absurd hc (hkq ▸ hqc)
        · rw [if_neg (fun hh => hkq hh.1)]
          refine ⟨fun hnp => absurd hpres hnp, fun e0 he0 => ?_, fun hc => hcc hc⟩
          rw [show ({ st with
                clock := st.clock + 1,
                historyList_ := ({ e with access_time_ := e.access_time_ ++ [st.clock] })
                  :: eraseKey st.historyList_ q } :
                  LRUK_Cache KEY VALUE).historyList_ =
              ({ e with access_time_ := e.access_time_ ++ [st.clock] })
                :: eraseKey st.historyList_ q from rfl,
            findEntry_cons_ne (by simp only; rw [hek]; exact fun hh => hkq hh),
            findEntry_eraseKey_ne (fun hh => hkq hh.symm)] at he0
          exact hch e0 he0
    · -- true miss: the state is unchanged
      have hstep : step st (Op.get q) = st := by
        simp only [step, LRUK_Cache.get, getFromCacheList_not_mem hqc,
          getFromHistoryList_not_mem hqh]
      rw [hstep] at hpres ⊢
      have hcond : ¬(q = key ∧ presentIn st key) := by
        rintro ⟨rfl, hp⟩
        rcases hp with hp | hp
        · exact hqh hp
        · exact hqc hp
      rw [if_neg hcond]
      exact ⟨hc0, hch, hcc⟩

theorem findEntry_dropLast_some {l : List (CacheEntry KEY VALUE)} {key : KEY}
    {e0 : CacheEntry KEY VALUE} (h : findEntry l.dropLast key = some e0) :
    findEntry l key = some e0 := by
  cases hne : l.getLast? with
  | none =>
    rw [List.getLast?_eq_none_iff] at hne
    rw [hne] at h
    exact Option.noConfusion h
  | some a =>
    have hsplit := List.dropLast_append_getLast? a hne
    rw [← hsplit]
    unfold findEntry at h ⊢
    rw [List.find?_append, h]
    rfl

theorem countInv_put {key q : KEY} {v : VALUE} {st : LRUK_Cache KEY VALUE}
    {cnt : Nat} (hInv : Inv st) (hci : CountInv key st cnt) :
    CountInv key (step st (Op.put q v)) (countStep key st cnt (Op.put q v)) := by
  by_cases hq : q ∈ keysOf st.cacheList_ ∨ q ∈ keysOf st.historyList_
  · -- `put` on a present key: acts as `get` followed by a value overwrite,
    -- and values are invisible to the count invariant
    have hstep : step st (Op.put q v) =
        overwriteValue (step st (Op.get q)) q v := by
      show LRUK_Cache.put st q v = _
      rw [put_eq_get_overwrite hInv hq]
      rfl
    have hcnt : countStep key st cnt (Op.put q v) =
        countStep key st cnt (Op.get q) := by
      unfold countStep
      rw [hstep]
      by_cases hp2 : presentIn (step st (Op.get q)) key
      · rw [if_pos (presentIn_overwrite.mpr hp2), if_pos hp2]
        simp only
        by_cases hkq : q = key
        · have hpst : presentIn st key := hkq ▸ hq.symm
          rw [if_pos hkq, if_pos hpst, if_pos ⟨hkq, hpst⟩]
        · rw [if_neg hkq, if_neg (fun hh => hkq hh.1)]
      · rw [if_neg (fun hh => hp2 (presentIn_overwrite.mp hh)), if_neg hp2]
    rw [hstep, hcnt]
    exact countInv_overwrite (countInv_get hInv hci)
  · -- `put` of an unseen key: fresh insertion, possibly evicting the tail
    push_neg at hq
    obtain ⟨hqc, hqh⟩ := hq
    obtain ⟨hc0, hch, hcc⟩ := hci
    unfold countStep
    by_cases hpres : presentIn (step st (Op.put q v)) key
    case neg =>
      rw [if_neg hpres]
      refine ⟨fun _ => rfl, fun e he => ?_, fun hc => absurd (Or.inr hc) hpres⟩
      exact absurd (Or.inl ((mem_keysOf _).mpr
        ⟨e, findEntry_some_mem _ _ _ he, findEntry_some_key _ _ _ he⟩)) hpres
    rw [if_pos hpres]
    simp only
    have hback : ∀ X : List (CacheEntry KEY VALUE),
        (∀ e0, findEntry X key = some e0 → findEntry st.historyList_ key = some e0) →
        step st (Op.put q v) =
          { st with
              historyList_ :=
                ({ key_ := q, value_ := v, access_time_ := [st.clock] } :
                  CacheEntry KEY VALUE) :: X,
              clock := st.clock + 1 } →
        CountInv key (step st (Op.put q v)) (if q = key then
          (if presentIn st key then cnt + 1 else 1) else cnt) := by
      intro X hX hstep
      rw [hstep] at hpres ⊢
      by_cases hkq : q = key
      · have hnpst : ¬ presentIn st key := by
          rintro (hp | hp)
          · exact hqh (hkq ▸ hp)
          · exact hqc (hkq ▸ hp)
        rw [if_pos hkq, if_neg hnpst]
        refine ⟨fun hnp => absurd hpres hnp, fun e0 he0 => ?_, fun hc => ?_⟩
        · rw [show ({ st with
              historyList_ :=
                ({ key_ := q, value_ := v, access_time_ := [st.clock] } :
                  CacheEntry KEY VALUE) :: X,
              clock := st.clock + 1 } :
              LRUK_Cache KEY VALUE).historyList_ =
              ({ key_ := q, value_ := v, access_time_ := [st.clock] } :
                CacheEntry KEY VALUE) :: X from rfl,
            findEntry_cons_self hkq] at he0
          have he0f : e0 = { key_ := q, value_ := v, access_time_ := [st.clock] } :=
            (Option.some.injEq _ _).mp he0.symm
          subst he0f
          exact ⟨by simp, fun _ => by simp⟩
        · exact absurd hc (hkq ▸ hqc)
      · rw [if_neg hkq]
        refine ⟨fun hnp => absurd hpres hnp, fun e0 he0 => ?_, fun hc => hcc hc⟩
        rw [show ({ st with
              historyList_ :=
                ({ key_ := q, value_ := v, access_time_ := [st.clock] } :
                  CacheEntry KEY VALUE) :: X,
              clock := st.clock + 1 } :
              LRUK_Cache KEY VALUE).historyList_ =
              ({ key_ := q, value_ := v, access_time_ := [st.clock] } :
                CacheEntry KEY VALUE) :: X from rfl,
          findEntry_cons_ne hkq] at he0
        exact hch e0 (hX e0 he0)
    by_cases hlt : (st.historyList_.length : Int) < st.capacity_
    · refine hback st.historyList_ (fun e0 h => h) ?_
      simp only [step, LRUK_Cache.put, getFromCacheList_not_mem hqc,
        getFromHistoryList_not_mem hqh]
      rw [if_pos hlt]
    · refine hback st.historyList_.dropLast (fun e0 h => findEntry_dropLast_some h) ?_
      simp only [step, LRUK_Cache.put, getFromCacheList_not_mem hqc,
        getFromHistoryList_not_mem hqh]
      rw [if_neg hlt]

theorem countInv_step {key : KEY} {st : LRUK_Cache KEY VALUE} {cnt : Nat}
    {op : Op KEY VALUE} (hInv : Inv st) (hci : CountInv key st cnt) :
    CountInv key (step st op) (countStep key st cnt op) := by
  cases op with
  | get q => exact countInv_get hInv hci
  | put q v => exact countInv_put hInv hci
  | clear =>
    have hnp : ¬ presentIn (step st Op.clear) key := by
      rintro (hp | hp) <;>
        simp [step, LRUK_Cache.clear, keysOf] at hp
    unfold countStep
    rw [if_neg hnp]
    refine ⟨fun _ => rfl, fun e he => ?_, fun hc => absurd (Or.inr hc) hnp⟩
    exact absurd (Or.inl ((mem_keysOf _).mpr
      ⟨e, findEntry_some_mem _ _ _ he, findEntry_some_key _ _ _ he⟩)) hnp

theorem countFold_fst {key : KEY} (ops : List (Op KEY VALUE)) :
    ∀ (st : LRUK_Cache KEY VALUE) (n : Nat),
      (ops.foldl (fun p op => (step p.1 op, countStep key p.1 p.2 op)) (st, n)).1 =
        ops.foldl step st := by
  induction ops with
  | nil => intro st n; rfl
  | cons op ops ih => intro st n; exact ih _ _

theorem countInv_foldl {key : KEY} (ops : List (Op KEY VALUE)) :
    ∀ {st : LRUK_Cache KEY VALUE} {n : Nat}, Inv st → CountInv key st n →
      CountInv key
        ((ops.foldl (fun p op => (step p.1 op, countStep key p.1 p.2 op)) (st, n)).1)
        ((ops.foldl (fun p op => (step p.1 op, countStep key p.1 p.2 op)) (st, n)).2) := by
  induction ops with
  | nil => exact fun _ h => h
  | cons op ops ih =>
    intro st n hInv hci
    exact ih (inv_step hInv) (countInv_step hInv hci)

theorem countInv_construct {c K : Int} {key : KEY} :
    CountInv key (LRUK_Cache.construct c K : LRUK_Cache KEY VALUE) 0 := by
  refine ⟨fun _ => rfl, fun e he => ?_, fun hc => ?_⟩
  · exact Option.noConfusion he
  · simp [LRUK_Cache.construct, keysOf] at hc

theorem countInv_run {c K : Int} (hc : 1 ≤ c) (hk : 1 ≤ K) (key : KEY)
    (ops : List (Op KEY VALUE)) :
    CountInv key (run c K ops) (countRun c K key ops) := by
  have h := countInv_foldl ops (inv_construct hc hk)
    (countInv_construct :
      CountInv key (LRUK_Cache.construct c K : LRUK_Cache KEY VALUE) 0)
  rw [countFold_fst] at h
  exact h

theorem step_put_present {q : KEY} {v : VALUE} {st : LRUK_Cache KEY VALUE}
    (hInv : Inv st)
    (hq : q ∈ keysOf st.cacheList_ ∨ q ∈ keysOf st.historyList_) :
    step st (Op.put q v) = overwriteValue (step st (Op.get q)) q v := by
  show LRUK_Cache.put st q v = _
  rw [put_eq_get_overwrite hInv hq]
  rfl

theorem countStep_put_present {key q : KEY} {v : VALUE}
    {st : LRUK_Cache KEY VALUE} {cnt : Nat} (hInv : Inv st)
    (hq : q ∈ keysOf st.cacheList_ ∨ q ∈ keysOf st.historyList_) :
    countStep key st cnt (Op.put q v) = countStep key st cnt (Op.get q) := by
  unfold countStep
  rw [step_put_present hInv hq]
  by_cases hp2 : presentIn (step st (Op.get q)) key
  · rw [if_pos (presentIn_overwrite.mpr hp2), if_pos hp2]
    simp only
    by_cases hkq : q = key
    · have hpst : presentIn st key := hkq ▸ hq.symm
      rw [if_pos hkq, if_pos hpst, if_pos ⟨hkq, hpst⟩]
    · rw [if_neg hkq, if_neg (fun hh => hkq hh.1)]
  · rw [if_neg (fun hh => hp2 (presentIn_overwrite.mp hh)), if_neg hp2]

theorem promotion_count_get {key q : KEY} {st : LRUK_Cache KEY VALUE}
    {cnt : Nat} (hInv : Inv st) (hci : CountInv key st cnt) :
    (key ∈ keysOf (step st (Op.get q)).cacheList_ →
      key ∉ keysOf st.cacheList_ →
      st.k_ ≤ (countStep key st cnt (Op.get q) : Int) ∧
      ((cnt : Int) < st.k_ →
        (countStep key st cnt (Op.get q) : Int) = st.k_)) ∧
    ((cnt : Int) < st.k_ → 2 ≤ st.k_ →
      st.k_ ≤ (countStep key st cnt (Op.get q) : Int) →
      key ∈ keysOf (step st (Op.get q)).cacheList_) := by
  obtain ⟨hc0, hch, hcc⟩ := hci
  have hcnt_le : countStep key st cnt (Op.get q) = cnt + 1 ∨
      countStep key st cnt (Op.get q) = cnt ∨
      countStep key st cnt (Op.get q) = 0 := by
    unfold countStep
    by_cases hp : presentIn (step st (Op.get q)) key
    · rw [if_pos hp]
      simp only
      by_cases hcond : q = key ∧ presentIn st key
      · rw [if_pos hcond]; exact Or.inl rfl
      · rw [if_neg hcond]; exact Or.inr (Or.inl rfl)
    · rw [if_neg hp]; exact Or.inr (Or.inr rfl)
  by_cases hqc : q ∈ keysOf st.cacheList_
  · -- hot hit: hot-region membership is unchanged
    obtain ⟨eq, hfq⟩ := Option.isSome_iff_exists.mp (findEntry_isSome_of_mem _ _ hqc)
    have hqek : eq.key_ = q := findEntry_some_key _ _ _ hfq
    have hlenq : (eq.access_time_.length : Int) = st.k_ :=
      hInv.cache_times eq (findEntry_some_mem _ _ _ hfq)
    have hgc := getFromCacheList_found hfq (by omega)
    have hperm : List.Perm (keysOf (sortCache (replaceFirst st.cacheList_ q
        ({ eq with access_time_ := (eq.access_time_ ++ [st.clock]).tail }))))
        (keysOf st.cacheList_) := by
      refine (keysOf_sortCache_perm _).trans ?_
      rw [keysOf_replaceFirst _ _ _ (by simp [hqek])]
    obtain ⟨r, hr⟩ := Option.isSome_iff_exists.mp
      (findEntry_isSome_of_mem _ _ (hperm.mem_iff.mpr hqc))
    have hstep : step st (Op.get q) =
        { st with
            clock := st.clock + 1,
            cacheList_ := sortCache (replaceFirst st.cacheList_ q
              ({ eq with access_time_ := (eq.access_time_ ++ [st.clock]).tail })) } := by
      simp only [step, LRUK_Cache.get, hgc, hr]
    rw [hstep]
    constructor
    · intro hin hnot
      exact absurd (hperm.mem_iff.mp hin) hnot
    · intro hlt h2 hge
      exfalso
      by_cases hkq : q = key
      · have := hcc (hkq ▸ hqc)
        omega
      · have hcnt' : countStep key st cnt (Op.get q) = cnt ∨
            countStep key st cnt (Op.get q) = 0 := by
          unfold countStep
          by_cases hp : presentIn (step st (Op.get q)) key
          · rw [if_pos hp]
            simp only
            rw [if_neg (fun hh => hkq hh.1)]
            exact Or.inl rfl
          · rw [if_neg hp]; exact Or.inr rfl
        rcases hcnt' with hh | hh <;> rw [hh] at hge <;> omega
  · by_cases hqh : q ∈ keysOf st.historyList_
    · obtain ⟨e, hf⟩ := Option.isSome_iff_exists.mp
        (findEntry_isSome_of_mem _ _ hqh)
      have hek : e.key_ = q := findEntry_some_key _ _ _ hf
      by_cases hbig : st.k_ ≤ (e.access_time_.length : Int) + 1
      · -- promoting access
        obtain ⟨st2, e', hgq, he', hfind, hnothist, hclk, hcap2, hkk2, hsp, hfl⟩ :=
          promote_result hInv hqc hf hbig
        have hstep : step st (Op.get q) = st2 := by
          simp only [step, LRUK_Cache.get, getFromCacheList_not_mem hqc, hgq]
        have hqcache2 : q ∈ keysOf st2.cacheList_ := (mem_keysOf _).mpr
          ⟨e', findEntry_some_mem _ _ _ hfind, findEntry_some_key _ _ _ hfind⟩
        have hpres2 : presentIn (step st (Op.get q)) q := by
          rw [hstep]
          exact Or.inr hqcache2
        rw [hstep]
        constructor
        · intro hin hnot
          have hkeyq : key = q := by
            by_cases hspace : (st.cacheList_.length : Int) < st.capacity_
            · obtain ⟨-, hperm2, -⟩ := hsp hspace
              rcases List.mem_cons.mp (hperm2.mem_iff.mp hin) with hh | hh
              · exact hh
              · exact absurd hh hnot
            · obtain ⟨vict, hlast, -, hperm2, -⟩ := hfl (by omega)
              rcases List.mem_cons.mp (hperm2.mem_iff.mp hin) with hh | hh
              · exact hh
              · exfalso
                refine hnot ?_
                have hsplit : st.cacheList_.dropLast ++ [vict] = st.cacheList_ :=
                  List.dropLast_append_getLast? vict hlast
                rw [← hsplit, keysOf_append]
                exact List.mem_append_left _ hh
          have hcnt1 : countStep key st cnt (Op.get q) = cnt + 1 := by
            unfold countStep
            have hp : presentIn (step st (Op.get q)) key := by
              rw [hstep, hkeyq]
              exact Or.inr hqcache2
            rw [if_pos hp]
            simp only
            rw [if_pos ⟨hkeyq.symm, by rw [hkeyq]; exact Or.inl hqh⟩]
          rw [hcnt1]
          obtain ⟨h1, h2⟩ := hch e (hkeyq.symm ▸ hf)
          constructor
          · push_cast
            omega
          · intro hlt
            have := h2 hlt
            push_cast
            omega
        · intro hlt h2k hge
          by_cases hkq : q = key
          · exact hkq ▸ hqcache2
          · exfalso
            have hcnt' : countStep key st cnt (Op.get q) = cnt ∨
                countStep key st cnt (Op.get q) = 0 := by
              unfold countStep
              by_cases hp : presentIn (step st (Op.get q)) key
              · rw [if_pos hp]
                simp only
                rw [if_neg (fun hh => hkq hh.1)]
                exact Or.inl rfl
              · rw [if_neg hp]; exact Or.inr rfl
            rcases hcnt' with hh | hh <;> rw [hh] at hge <;> omega
      · -- non-promoting history access: the hot region is unchanged
        have hstay := getFromHistoryList_stay hf (by omega)
        have hstep : step st (Op.get q) =
            { st with
                clock := st.clock + 1,
                historyList_ :=
                  ({ e with access_time_ := e.access_time_ ++ [st.clock] })
                    :: eraseKey st.historyList_ q } := by
          simp only [step, LRUK_Cache.get, getFromCacheList_not_mem hqc, hstay]
        rw [hstep]
        constructor
        · intro hin hnot
          exact absurd hin hnot
        · intro hlt h2k hge
          exfalso
          by_cases hkq : q = key
          · obtain ⟨h1, h2⟩ := hch e (hkq ▸ hf)
            have hlen := h2 hlt
            rcases hcnt_le with hh | hh | hh <;> rw [hh] at hge <;> omega
          · have hcnt' : countStep key st cnt (Op.get q) = cnt ∨
                countStep key st cnt (Op.get q) = 0 := by
              unfold countStep
              by_cases hp : presentIn (step st (Op.get q)) key
              · rw [if_pos hp]
                simp only
                rw [if_neg (fun hh => hkq hh.1)]
                exact Or.inl rfl
              · rw [if_neg hp]; exact Or.inr rfl
            rcases hcnt' with hh | hh <;> rw [hh] at hge <;> omega
    · -- true miss: nothing changes
      have hstep : step st (Op.get q) = st := by
        simp only [step, LRUK_Cache.get, getFromCacheList_not_mem hqc,
          getFromHistoryList_not_mem hqh]
      rw [hstep]
      constructor
      · intro hin hnot
        exact absurd hin hnot
      · intro hlt h2k hge
        exfalso
        have hcnt' : countStep key st cnt (Op.get q) = cnt ∨
            countStep key st cnt (Op.get q) = 0 := by
          unfold countStep
          by_cases hp : presentIn (step st (Op.get q)) key
          · rw [if_pos hp]
            simp only
            by_cases hkq : q = key
            · rw [if_neg (show ¬(q = key ∧ presentIn st key) from by
                rintro ⟨rfl, hp2 | hp2⟩
                · exact hqh hp2
                · exact hqc hp2)]
              exact Or.inl rfl
            · rw [if_neg (fun hh => hkq hh.1)]
              exact Or.inl rfl
          · rw [if_neg hp]; exact Or.inr rfl
        rcases hcnt' with hh | hh <;> rw [hh] at hge <;> omega

theorem promotion_count_step {key : KEY} {st : LRUK_Cache KEY VALUE}
    {cnt : Nat} {op : Op KEY VALUE} (hInv : Inv st)
    (hci : CountInv key st cnt) :
    (key ∈ keysOf (step st op).cacheList_ → key ∉ keysOf st.cacheList_ →
      st.k_ ≤ (countStep key st cnt op : Int) ∧
      ((cnt : Int) < st.k_ → (countStep key st cnt op : Int) = st.k_)) ∧
    ((cnt : Int) < st.k_ → 2 ≤ st.k_ →
      st.k_ ≤ (countStep key st cnt op : Int) →
      key ∈ keysOf (step st op).cacheList_) := by
  cases op with
  | get q => exact promotion_count_get hInv hci
  | clear =>
    have hnp : ¬ presentIn (step st Op.clear) key := by
      rintro (hp | hp) <;> simp [step, LRUK_Cache.clear, keysOf] at hp
    have hcnt0 : countStep key st cnt Op.clear = 0 := by
      unfold countStep
      rw [if_neg hnp]
    rw [hcnt0]
    constructor
    · intro hin hnot
      simp [step, LRUK_Cache.clear, keysOf] at hin
    · intro hlt h2k hge
      exfalso
      omega
  | put q v =>
    by_cases hq : q ∈ keysOf st.cacheList_ ∨ q ∈ keysOf st.historyList_
    · have h := promotion_count_get (q := q) hInv hci
      rw [← countStep_put_present (v := v) hInv hq] at h
      have hkeys : keysOf (step st (Op.put q v)).cacheList_ =
          keysOf (step st (Op.get q)).cacheList_ := by
        rw [step_put_present hInv hq]
        show keysOf (setValueFirst (step st (Op.get q)).cacheList_ q v) = _
        rw [keysOf_setValueFirst]
      rw [hkeys]
      exact h
    · push_neg at hq
      obtain ⟨hqc, hqh⟩ := hq
      have hcache : (step st (Op.put q v)).cacheList_ = st.cacheList_ := by
        by_cases hlt : (st.historyList_.length : Int) < st.capacity_
        · simp only [step, LRUK_Cache.put, getFromCacheList_not_mem hqc,
            getFromHistoryList_not_mem hqh]
          rw [if_pos hlt]
        · simp only [step, LRUK_Cache.put, getFromCacheList_not_mem hqc,
            getFromHistoryList_not_mem hqh]
          rw [if_neg hlt]
      rw [hcache]
      constructor
      · intro hin hnot
        exact absurd hin hnot
      · intro hlt h2k hge
        exfalso
        obtain ⟨hc0, hch, hcc⟩ := hci
        have hcnt' : countStep key st cnt (Op.put q v) = 1 ∨
            countStep key st cnt (Op.put q v) = cnt ∨
            countStep key st cnt (Op.put q v) = 0 := by
          unfold countStep
          by_cases hp : presentIn (step st (Op.put q v)) key
          · rw [if_pos hp]
            simp only
            by_cases hkq : q = key
            · have hnpst : ¬ presentIn st key := by
                rintro (hp2 | hp2)
                · exact hqh (hkq ▸ hp2)
                · exact hqc (hkq ▸ hp2)
              rw [if_pos hkq, if_neg hnpst]
              exact Or.inl rfl
            · rw [if_neg hkq]
              exact Or.inr (Or.inl rfl)
          · rw [if_neg hp]
            exact Or.inr (Or.inr rfl)
        rcases hcnt' with hh | hh | hh <;> rw [hh] at hge <;> omega

/-- C3 counterexample: with C = 1, K = 2, key 1 is created, promoted at its
2nd access, demoted by key 2's promotion while remaining resident (so its
lifetime continues), and then re-enters the hot region at its very next
access — its cumulative count there being 3, not K = 2.  A key can therefore
enter the hot region more than once per lifetime, and not only at count K. -/
theorem C3_counterexample :
    (1 : Int) ∈ keysOf (run 1 2 [Op.put 1 "a", Op.get 1]).cacheList_ ∧
    presentIn (run 1 2 [Op.put 1 "a", Op.get 1, Op.put 2 "b"]) 1 ∧
    (1 : Int) ∉ keysOf (run 1 2 demoteOps).cacheList_ ∧
    (1 : Int) ∈ keysOf (run 1 2 demoteOps).historyList_ ∧
    (1 : Int) ∈ keysOf (run 1 2 (demoteOps ++ [Op.get 1])).cacheList_ ∧
    countRun 1 2 (1 : Int) (demoteOps ++ [Op.get 1]) = 3 := by
  decide

/-- C3 (amended): a key enters the hot region only through an access that
makes its cumulative lifetime count at least K; when its count had not yet
reached K (in particular the first time), the entry happens exactly as the
count reaches K; and conversely (for K ≥ 2) an access that lifts the count
from below K to K lands the key in the hot region.  (After a demotion the
count is ≥ K already and the key re-enters the hot region on its next
access, so "at most once per lifetime" does not hold; see the
counterexample.) -/
theorem C3_promotion_law (c K : Int) (hc : 1 ≤ c) (hk : 1 ≤ K)
    (ops : List (Op KEY VALUE)) (op : Op KEY VALUE) (key : KEY) :
    (key ∈ keysOf (run c K (ops ++ [op])).cacheList_ →
      key ∉ keysOf (run c K ops).cacheList_ →
      K ≤ (countRun c K key (ops ++ [op]) : Int) ∧
      ((countRun c K key ops : Int) < K →
        (countRun c K key (ops ++ [op]) : Int) = K)) ∧
    ((countRun c K key ops : Int) < K → 2 ≤ K →
      K ≤ (countRun c K key (ops ++ [op]) : Int) →
      key ∈ keysOf (run c K (ops ++ [op])).cacheList_) := by
  have hrun : run c K (ops ++ [op]) = step (run c K ops) op := by
    unfold run
    rw [List.foldl_append]
    rfl
  have hcount : countRun c K key (ops ++ [op]) =
      countStep key (run c K ops) (countRun c K key ops) op := by
    unfold countRun
    rw [List.foldl_append]
    simp only [List.foldl_cons, List.foldl_nil]
    rw [countFold_fst]
    rfl
  have hK2 := (run_config c K ops).2
  have h := @promotion_count_step KEY VALUE _ _ key (run c K ops)
    (countRun c K key ops) op (inv_run hc hk ops)
    (countInv_run hc hk key ops)
  rw [hK2] at h
  rw [hrun, hcount]
  exact h

/-- Witness for C3 at the example trace: `put 5 "E1"` on the state after
`c4ops` promotes key 5, whose count reaches exactly K = 2 there. -/
theorem C3_witness :
    (1 : Int) ≤ 3 ∧ (1 : Int) ≤ 2 ∧
    ((((5 : Int) ∈ keysOf (run 3 2 (c4ops ++ [Op.put 5 "E1"])).cacheList_ →
       (5 : Int) ∉ keysOf (run 3 2 c4ops).cacheList_ →
       (2 : Int) ≤ (countRun 3 2 (5 : Int) (c4ops ++ [Op.put 5 "E1"]) : Int) ∧
       ((countRun 3 2 (5 : Int) c4ops : Int) < 2 →
         (countRun 3 2 (5 : Int) (c4ops ++ [Op.put 5 "E1"]) : Int) = 2)) ∧
      ((countRun 3 2 (5 : Int) c4ops : Int) < 2 → (2 : Int) ≤ 2 →
        (2 : Int) ≤ (countRun 3 2 (5 : Int) (c4ops ++ [Op.put 5 "E1"]) : Int) →
        (5 : Int) ∈ keysOf (run 3 2 (c4ops ++ [Op.put 5 "E1"])).cacheList_))) :=
  ⟨by decide, by decide,
    C3_promotion_law 3 2 (by decide) (by decide) c4ops (Op.put 5 "E1") 5⟩

end LRUKSpec
